import Mathlib

set_option maxRecDepth 16384

/-!
Verification development for the ACTA credential-anchoring service.

The TypeScript service (src/services/stellarService.ts, plus the older
iteration and the standalone `StellarValidator` bundled in src/index.ts) is
shallowly embedded below.  External library behavior that the service relies
on is modelled from its documented semantics:

* `JSON.stringify(data, replacerArray)` — ECMA-262 `SerializeJSONObject`
  with a `PropertyList`: the property list acts as a filter *and* ordering
  for the members of **every** object encountered, at every nesting level.
* `JSON.parse` — the JSON grammar (RFC 8259 / ECMA-404), duplicate object
  keys resolved last-wins-in-place, numbers kept as their source lexemes.
* `crypto.createHash('sha256')` — FIPS 180-4 SHA-256 over the UTF-8 bytes.
* `Array.prototype.sort()` with no comparator — lexicographic comparison of
  the UTF-16 code-unit sequences of the strings.

Machine integers are modelled as `Nat` with explicit `% 2^32` where
overflow matters; fallible code returns `Except`/`Option`.
-/

/-! ## Characters, UTF-16 ordering (JS default string sort) -/

/-- UTF-16 code units of a character (surrogate pair for astral planes). -/
def u16 (c : Char) : List Nat :=
  if c.toNat < 65536 then [c.toNat]
  else [55296 + (c.toNat - 65536) / 1024, 56320 + (c.toNat - 65536) % 1024]

/-- Strict lexicographic order on unit lists. -/
def ltUnits : List Nat → List Nat → Bool
  | [], [] => false
  | [], _ :: _ => true
  | _ :: _, [] => false
  | a :: as, b :: bs => if a < b then true else if a = b then ltUnits as bs else false

/-- JS string `<` on single characters, by UTF-16 units.  Comparing two
characters unit-list-wise agrees with comparing the flattened unit
sequences of whole strings, because a one-unit character is never a
surrogate (Lean `Char` excludes surrogates) and hence never a proper
initial segment of a two-unit character. -/
def charLtB (c d : Char) : Bool := ltUnits (u16 c) (u16 d)

/-- JS default sort comparator (string `≤`), character-wise. -/
def keyLeB : List Char → List Char → Bool
  | [], _ => true
  | _ :: _, [] => false
  | a :: as, b :: bs => if charLtB a b then true else if a = b then keyLeB as bs else false

theorem ltUnits_asymm : ∀ {u v : List Nat}, ltUnits u v = true → ltUnits v u = false
  | [], [], _ => rfl
  | [], _ :: _, _ => rfl
  | _ :: _, [], h => by simp [ltUnits] at h
  | a :: as, b :: bs, h => by
      simp only [ltUnits] at h ⊢
      by_cases hab : a < b
      · have : ¬ b < a := by omega
        have : ¬ b = a := by omega
        simp [*]
      · by_cases heq : a = b
        · subst heq
          simp only [hab, if_neg, if_pos rfl] at h
          simp [hab, ltUnits_asymm h]
        · simp [hab, heq] at h

theorem ltUnits_total : ∀ {u v : List Nat},
    ltUnits u v = false → ltUnits v u = false → u = v
  | [], [], _, _ => rfl
  | [], _ :: _, h, _ => by simp [ltUnits] at h
  | _ :: _, [], _, h => by simp [ltUnits] at h
  | a :: as, b :: bs, h, h' => by
      simp only [ltUnits] at h h'
      by_cases hab : a < b
      · simp [hab] at h
      · by_cases hba : b < a
        · simp [hba] at h'
        · have heq : a = b := by omega
          subst heq
          simp only [lt_irrefl, if_neg, if_pos rfl, Nat.lt_irrefl] at h h'
          have := ltUnits_total (u := as) (v := bs) (by simpa using h) (by simpa using h')
          simp [this]

theorem ltUnits_trans : ∀ {u v w : List Nat},
    ltUnits u v = true → ltUnits v w = true → ltUnits u w = true
  | [], [], _, h, _ => by simp [ltUnits] at h
  | [], _ :: _, [], _, h => by simp [ltUnits] at h
  | [], _ :: _, _ :: _, _, _ => by simp [ltUnits]
  | _ :: _, [], _, h, _ => by simp [ltUnits] at h
  | _ :: _, _ :: _, [], _, h => by simp [ltUnits] at h
  | a :: as, b :: bs, c :: cs, h, h' => by
      simp only [ltUnits] at h h' ⊢
      by_cases hab : a < b
      · by_cases hbc : b < c
        · have : a < c := by omega
          simp [this]
        · by_cases hbc' : b = c
          · subst hbc'
            simp [hab]
          · simp [hbc, hbc'] at h'
      · by_cases hab' : a = b
        · subst hab'
          simp only [hab, if_neg, if_pos rfl] at h
          by_cases hbc : a < c
          · simp [hbc]
          · by_cases hbc' : a = c
            · subst hbc'
              simp only [hbc, if_neg, if_pos rfl] at h' ⊢
              exact ltUnits_trans h h'
            · simp [hbc, hbc'] at h'
        · simp [hab, hab'] at h

theorem charToNat_inj {c d : Char} (h : c.toNat = d.toNat) : c = d := by
  rw [← Char.ofNat_toNat c, ← Char.ofNat_toNat d, h]

theorem u16_inj {c d : Char} (h : u16 c = u16 d) : c = d := by
  unfold u16 at h
  by_cases hc : c.toNat < 65536
  · by_cases hd : d.toNat < 65536
    · simp [hc, hd] at h
      exact charToNat_inj h
    · simp [hc, hd] at h
  · by_cases hd : d.toNat < 65536
    · simp [hc, hd] at h
    · simp [hc, hd] at h
      obtain ⟨h1, h2⟩ := h
      apply charToNat_inj
      have e1 : (c.toNat - 65536) / 1024 = (d.toNat - 65536) / 1024 := by omega
      have e2 : (c.toNat - 65536) % 1024 = (d.toNat - 65536) % 1024 := by omega
      have := Nat.div_add_mod (c.toNat - 65536) 1024
      have := Nat.div_add_mod (d.toNat - 65536) 1024
      omega

theorem charLtB_asymm {c d : Char} (h : charLtB c d = true) : charLtB d c = false :=
  ltUnits_asymm h

theorem charLtB_total {c d : Char} (h : charLtB c d = false) (h' : charLtB d c = false) :
    c = d :=
  u16_inj (ltUnits_total h h')

theorem charLtB_trans {c d e : Char} (h : charLtB c d = true) (h' : charLtB d e = true) :
    charLtB c e = true :=
  ltUnits_trans h h'

theorem keyLeB_total : ∀ (a b : List Char), keyLeB a b = true ∨ keyLeB b a = true
  | [], _ => Or.inl rfl
  | _ :: _, [] => Or.inr rfl
  | a :: as, b :: bs => by
      by_cases hab : charLtB a b = true
      · left; simp [keyLeB, hab]
      · by_cases hba : charLtB b a = true
        · right; simp [keyLeB, hba]
        · have heq : a = b :=
            charLtB_total (Bool.eq_false_iff.mpr hab) (Bool.eq_false_iff.mpr hba)
          subst heq
          rcases keyLeB_total as bs with h | h
          · left; simp [keyLeB, hab, h]
          · right; simp [keyLeB, hab, h]

theorem keyLeB_antisymm : ∀ {a b : List Char},
    keyLeB a b = true → keyLeB b a = true → a = b
  | [], [], _, _ => rfl
  | [], _ :: _, _, h => by simp [keyLeB] at h
  | _ :: _, [], h, _ => by simp [keyLeB] at h
  | a :: as, b :: bs, h, h' => by
      simp only [keyLeB] at h h'
      by_cases hab : charLtB a b = true
      · have := charLtB_asymm hab
        by_cases hba : b = a
        · subst hba; simp [charLtB, ltUnits_asymm] at hab ⊢
          cases hu : ltUnits (u16 b) (u16 b)
          · rw [hu] at hab; exact absurd hab (by simp)
          · have := ltUnits_asymm hu; rw [hu] at this; simp at this
        · simp [this, hba] at h'
      · by_cases heq : a = b
        · subst heq
          simp only [hab, if_neg, if_pos rfl] at h h'
          have := keyLeB_antisymm h h'
          simp [this]
        · simp [hab, heq] at h

theorem keyLeB_trans : ∀ {a b c : List Char},
    keyLeB a b = true → keyLeB b c = true → keyLeB a c = true
  | [], _, _, _, _ => rfl
  | _ :: _, [], _, h, _ => by simp [keyLeB] at h
  | _ :: _, _ :: _, [], _, h => by simp [keyLeB] at h
  | a :: as, b :: bs, c :: cs, h, h' => by
      simp only [keyLeB] at h h' ⊢
      by_cases hab : charLtB a b = true
      · by_cases hbc : charLtB b c = true
        · simp [charLtB_trans hab hbc]
        · by_cases hbc' : b = c
          · subst hbc'; simp [hab]
          · simp [hbc, hbc'] at h'
      · by_cases hab' : a = b
        · subst hab'
          simp only [hab, if_neg, if_pos rfl] at h
          by_cases hac : charLtB a c = true
          · simp [hac]
          · by_cases hac' : a = c
            · subst hac'
              simp only [hac, if_neg, if_pos rfl] at h' ⊢
              exact keyLeB_trans h h'
            · simp [hac, hac'] at h'
        · simp [hab, hab'] at h

/-- The sort relation used to model `Object.keys(data).sort()`. -/
def keyLe (a b : List Char) : Prop := keyLeB a b = true

instance : DecidableRel keyLe := fun a b => inferInstanceAs (Decidable (_ = true))

instance : IsTotal (List Char) keyLe := ⟨keyLeB_total⟩

instance : IsTrans (List Char) keyLe := ⟨fun _ _ _ => keyLeB_trans⟩

instance : IsAntisymm (List Char) keyLe := ⟨fun _ _ => keyLeB_antisymm⟩

/-! ## Decimal and hexadecimal digits, UTF-8 -/

/-- Decimal digit character. -/
def digitChar (n : Nat) : Char := Char.ofNat (48 + n)

/-- Fueled digit expansion (structural, hence kernel-computable). -/
def natToCharsAux : Nat → Nat → List Char
  | 0, _ => []
  | fuel + 1, n =>
      if n < 10 then [digitChar n]
      else natToCharsAux fuel (n / 10) ++ [digitChar (n % 10)]

/-- Decimal representation of a natural number (as `String(n)` in JS). -/
def natToChars (n : Nat) : List Char := natToCharsAux (n + 1) n

/-- Lowercase hexadecimal digit character. -/
def hexChar (n : Nat) : Char :=
  if n < 10 then Char.ofNat (48 + n) else Char.ofNat (87 + n)

/-- UTF-8 bytes of one character. -/
def utf8Char (c : Char) : List Nat :=
  let n := c.toNat
  if n < 128 then [n]
  else if n < 2048 then [192 + n / 64, 128 + n % 64]
  else if n < 65536 then [224 + n / 4096, 128 + (n / 64) % 64, 128 + n % 64]
  else [240 + n / 262144, 128 + (n / 4096) % 64, 128 + (n / 64) % 64, 128 + n % 64]

/-- UTF-8 bytes of a character list. -/
def utf8Encode (s : List Char) : List Nat := (s.map utf8Char).flatten

/-! ## SHA-256 (FIPS 180-4), over byte lists, words as `Nat` mod 2^32 -/

def w32 : Nat := 4294967296

def rotr32 (k n : Nat) : Nat := ((n >>> k) ||| ((n <<< (32 - k)) % w32))

def shaCh (e f g : Nat) : Nat := (e &&& f) ^^^ ((e ^^^ 4294967295) &&& g)

def shaMaj (a b c : Nat) : Nat := (a &&& b) ^^^ (a &&& c) ^^^ (b &&& c)

def bigSigma0 (a : Nat) : Nat := rotr32 2 a ^^^ rotr32 13 a ^^^ rotr32 22 a

def bigSigma1 (e : Nat) : Nat := rotr32 6 e ^^^ rotr32 11 e ^^^ rotr32 25 e

def smallSigma0 (x : Nat) : Nat := rotr32 7 x ^^^ rotr32 18 x ^^^ (x >>> 3)

def smallSigma1 (x : Nat) : Nat := rotr32 17 x ^^^ rotr32 19 x ^^^ (x >>> 10)

def shaK : List Nat :=
  [1116352408, 1899447441, 3049323471, 3921009573, 961987163, 1508970993,
   2453635748, 2870763221, 3624381080, 310598401, 607225278, 1426881987,
   1925078388, 2162078206, 2614888103, 3248222580, 3835390401, 4022224774,
   264347078, 604807628, 770255983, 1249150122, 1555081692, 1996064986,
   2554220882, 2821834349, 2952996808, 3210313671, 3336571891, 3584528711,
   113926993, 338241895, 666307205, 773529912, 1294757372, 1396182291,
   1695183700, 1986661051, 2177026350, 2456956037, 2730485921, 2820302411,
   3259730800, 3345764771, 3516065817, 3600352804, 4094571909, 275423344,
   430227734, 506948616, 659060556, 883997877, 958139571, 1322822218,
   1537002063, 1747873779, 1955562222, 2024104815, 2227730452, 2361852424,
   2428436474, 2756734187, 3204031479, 3329325298]

def shaH0 : List Nat :=
  [1779033703, 3144134277, 1013904242, 2773480762,
   1359893119, 2600822924, 528734635, 1541459225]

/-- Message padding: byte 128, zeros, 8-byte big-endian bit length. -/
def shaPad (msg : List Nat) : List Nat :=
  let len := msg.length
  let z := (64 - (len + 9) % 64) % 64
  let bits := 8 * len
  msg ++ [128] ++ List.replicate z 0 ++
    [(bits >>> 56) % 256, (bits >>> 48) % 256, (bits >>> 40) % 256, (bits >>> 32) % 256,
     (bits >>> 24) % 256, (bits >>> 16) % 256, (bits >>> 8) % 256, bits % 256]

/-- Fueled chunking (structural, hence kernel-computable). -/
def chunksOfAux (n : Nat) : Nat → List α → List (List α)
  | 0, _ => []
  | fuel + 1, l => if l.isEmpty then [] else l.take n :: chunksOfAux n fuel (l.drop n)

/-- Split into chunks of `n` (n > 0 intended). -/
def chunksOf (n : Nat) (l : List α) : List (List α) := chunksOfAux n l.length l

/-- 16 big-endian 32-bit words from a 64-byte block. -/
def blockWords (b : List Nat) : List Nat :=
  (List.range 16).map fun i =>
    (b.getD (4 * i) 0) <<< 24 ||| (b.getD (4 * i + 1) 0) <<< 16 |||
    (b.getD (4 * i + 2) 0) <<< 8 ||| b.getD (4 * i + 3) 0

/-- Extend 16 words to the 64-word message schedule. -/
def shaSchedule (ws : List Nat) : List Nat :=
  (List.range 48).foldl
    (fun w i =>
      w ++ [(smallSigma1 (w.getD (i + 14) 0) + w.getD (i + 9) 0 +
             smallSigma0 (w.getD (i + 1) 0) + w.getD i 0) % w32])
    ws

/-- One compression round. -/
def shaRound (wk : Nat × Nat) (st : List Nat) : List Nat :=
  let a := st.getD 0 0
  let b := st.getD 1 0
  let c := st.getD 2 0
  let d := st.getD 3 0
  let e := st.getD 4 0
  let f := st.getD 5 0
  let g := st.getD 6 0
  let hh := st.getD 7 0
  let t1 := (hh + bigSigma1 e + shaCh e f g + wk.1 + wk.2) % w32
  let t2 := (bigSigma0 a + shaMaj a b c) % w32
  [(t1 + t2) % w32, a, b, c, (d + t1) % w32, e, f, g]

/-- Compress one 64-byte block into the running hash state. -/
def shaCompress (h : List Nat) (block : List Nat) : List Nat :=
  let w := shaSchedule (blockWords block)
  let st := (List.zip shaK w).foldl (fun st wk => shaRound wk st) h
  List.zipWith (fun x y => (x + y) % w32) h st

/-- 8 lowercase hex characters of a 32-bit word. -/
def hexWord32 (n : Nat) : List Char :=
  (List.range 8).map fun i => hexChar ((n >>> (28 - 4 * i)) % 16)

/-- SHA-256 of a byte list as lowercase hex characters. -/
def sha256hex (msg : List Nat) : List Char :=
  (((chunksOf 64 (shaPad msg)).foldl shaCompress shaH0).map hexWord32).flatten

/-- SHA-256 hex digest of a character list (hashing its UTF-8 bytes),
modelling `crypto.createHash('sha256').update(s).digest('hex')`. -/
def sha256hexOfChars (s : List Char) : List Char := sha256hex (utf8Encode s)

/-! ## JSON values

`Json` models a parsed JS value as the service sees it.  Numbers are kept
as their source lexemes (`numLit`): no claim depends on float arithmetic,
only on lexeme identity and JS truthiness.  Objects are ordered member
lists (JS insertion order); `JSON.parse` resolves duplicate keys
last-wins-in-place, so parsed objects never contain duplicate keys. -/

deriving instance DecidableEq for Except

inductive Json where
  | null
  | bool (b : Bool)
  | numLit (lex : List Char)
  | str (s : List Char)
  | arr (elems : List Json)
  | obj (members : List (List Char × Json))

/-- First-match property lookup (JS objects have unique keys). -/
def lookupKey (k : List Char) : List (List Char × Json) → Option Json
  | [] => none
  | (k', v) :: m => if k' = k then some v else lookupKey k m

/-- JS property assignment: replace in place if present, else append. -/
def setKey (k : List Char) (v : Json) : List (List Char × Json) → List (List Char × Json)
  | [] => [(k, v)]
  | (k', v') :: m => if k' = k then (k', v) :: m else (k', v') :: setKey k v m

/-- Member access `j.k` as JS sees it (`undefined` = `none`); accessing a
member of `null` throws a `TypeError`, handled separately by callers. -/
def getKey (j : Json) (k : List Char) : Option Json :=
  match j with
  | .obj m => lookupKey k m
  | _ => none

/-- Whether a number lexeme denotes zero (sign, zeros, exponent ignored).
Extreme-exponent underflow to floating-point zero is not modelled. -/
def numLexTruthy (l : List Char) : Bool :=
  (l.takeWhile fun c => c ≠ 'e' ∧ c ≠ 'E').any fun c => '1' ≤ c ∧ c ≤ '9'

/-- JS truthiness of a value. -/
def jsTruthy : Json → Bool
  | .null => false
  | .bool b => b
  | .numLit l => numLexTruthy l
  | .str s => decide (s ≠ [])
  | .arr _ => true
  | .obj _ => true

/-- JS truthiness with `undefined` (`none`) falsy. -/
def truthyOpt : Option Json → Bool
  | none => false
  | some j => jsTruthy j

/-! ## JSON serialization (`JSON.stringify`) -/

def quoteC : Char := Char.ofNat 34

def bslC : Char := Char.ofNat 92

def lbraceC : Char := Char.ofNat 123

def rbraceC : Char := Char.ofNat 125

def lbrackC : Char := Char.ofNat 91

def rbrackC : Char := Char.ofNat 93

def colonC : Char := Char.ofNat 58

def commaC : Char := Char.ofNat 44

/-- `QuoteJSONString` escaping of one character. -/
def escapeChar (c : Char) : List Char :=
  if c = quoteC then [bslC, quoteC]
  else if c = bslC then [bslC, bslC]
  else if c.toNat = 8 then [bslC, 'b']
  else if c.toNat = 9 then [bslC, 't']
  else if c.toNat = 10 then [bslC, 'n']
  else if c.toNat = 12 then [bslC, 'f']
  else if c.toNat = 13 then [bslC, 'r']
  else if c.toNat < 32 then [bslC, 'u', '0', '0', hexChar (c.toNat / 16), hexChar (c.toNat % 16)]
  else [c]

/-- A JSON string literal with quotes and escapes. -/
def serStringLit (s : List Char) : List Char :=
  quoteC :: (s.map escapeChar).flatten ++ [quoteC]

theorem lookupKey_mem {k : List Char} {v : Json} :
    ∀ {m : List (List Char × Json)}, lookupKey k m = some v → (k, v) ∈ m
  | [], h => by simp [lookupKey] at h
  | (k', v') :: m, h => by
      simp only [lookupKey] at h
      split at h
      · next heq =>
          cases h
          subst heq
          exact List.mem_cons_self _ _
      · exact List.mem_cons_of_mem _ (lookupKey_mem h)

mutual

/-- `JSON.stringify(v)` (no replacer): compact output, object members in
insertion order. -/
def serVal : Json → List Char
  | .null => 'n' :: 'u' :: 'l' :: 'l' :: []
  | .bool true => 't' :: 'r' :: 'u' :: 'e' :: []
  | .bool false => 'f' :: 'a' :: 'l' :: 's' :: 'e' :: []
  | .numLit l => l
  | .str s => serStringLit s
  | .arr xs => lbrackC :: serElems xs ++ [rbrackC]
  | .obj m => lbraceC :: serMembers m ++ [rbraceC]

/-- Array elements, comma-separated. -/
def serElems : List Json → List Char
  | [] => []
  | [x] => serVal x
  | x :: y :: xs => serVal x ++ commaC :: serElems (y :: xs)

/-- Object members, comma-separated. -/
def serMembers : List (List Char × Json) → List Char
  | [] => []
  | [(k, v)] => serStringLit k ++ colonC :: serVal v
  | (k, v) :: q :: m => serStringLit k ++ colonC :: serVal v ++ commaC :: serMembers (q :: m)

end

/-- `JSON.stringify(v)` with no replacer. -/
def stringify (v : Json) : List Char := serVal v

/-- Members retained by a `PropertyList`: the listed keys, in list order,
each resolved against the object (absent keys are skipped). -/
def pickMembers (props : List (List Char)) (m : List (List Char × Json)) :
    List (List Char × Json) :=
  props.filterMap fun k => (lookupKey k m).map fun v => (k, v)

mutual

/-- The projection a `PropertyList` replacer array applies: at every
object, keep only the listed keys, in list order, and recurse.  ECMA-262's
`SerializeJSONObject` interleaves this filtering with serialization; in a
pure model filtering first and serializing the projection is equivalent
(serializing a dropped member has no observable effect).  Filtering every
member before the reordering pick is likewise equivalent, since the pick
selects a subset of the filtered members. -/
def filterProj (props : List (List Char)) : Json → Json
  | .obj m => .obj (pickMembers props (filterMembersJ props m))
  | .arr xs => .arr (filterElemsJ props xs)
  | .null => .null
  | .bool b => .bool b
  | .numLit l => .numLit l
  | .str s => .str s

def filterElemsJ (props : List (List Char)) : List Json → List Json
  | [] => []
  | x :: xs => filterProj props x :: filterElemsJ props xs

def filterMembersJ (props : List (List Char)) :
    List (List Char × Json) → List (List Char × Json)
  | [] => []
  | (k, v) :: m => (k, filterProj props v) :: filterMembersJ props m

end

/-- `JSON.stringify(v, props)` with an array replacer: `props` filters and
orders the members of every object at every nesting level. -/
def stringifyW (props : List (List Char)) (v : Json) : List Char :=
  serVal (filterProj props v)

/-! ## Canonical top-level key list and the content hash -/

/-- `Object.keys(data)`: own enumerable keys; index strings for arrays and
strings, empty for the other primitives (the route rejects absent data
before hashing, so `null` never reaches the hash). -/
def topKeys : Json → List (List Char)
  | .obj m => m.map Prod.fst
  | .arr xs => (List.range xs.length).map natToChars
  | .str s => (List.range s.length).map natToChars
  | _ => []

/-- `Object.keys(data).sort()` — JS default sort. -/
def sortedTopKeys (j : Json) : List (List Char) :=
  List.insertionSort keyLe (topKeys j)

/-- `generateHash` (stellarService.ts:37-40):
`JSON.stringify(data, Object.keys(data).sort())` hashed with SHA-256,
hex digest. -/
def generateHash (data : Json) : List Char :=
  sha256hexOfChars (stringifyW (sortedTopKeys data) data)

/-! ## JSON parsing (`JSON.parse`)

Fueled recursive-descent parser for the JSON grammar.  Numbers are kept as
lexemes; duplicate object keys resolve last-wins-in-place (`setKey`);
`\uXXXX` escapes accept surrogate pairs (lone surrogates, which JS strings
can hold but Lean `Char` cannot, are rejected — noted model boundary). -/

def isWsC (c : Char) : Bool :=
  c = ' ' || c = Char.ofNat 9 || c = Char.ofNat 10 || c = Char.ofNat 13

def skipWs (cs : List Char) : List Char := cs.dropWhile isWsC

def isDigitC (c : Char) : Bool := '0' ≤ c && c ≤ '9'

def hexVal (c : Char) : Option Nat :=
  if '0' ≤ c ∧ c ≤ '9' then some (c.toNat - 48)
  else if 'a' ≤ c ∧ c ≤ 'f' then some (c.toNat - 87)
  else if 'A' ≤ c ∧ c ≤ 'F' then some (c.toNat - 55)
  else none

/-- Decode one two-character escape, or a `\\u` escape via `parseUEscape`. -/
def parseUEscape : List Char → Option (Char × List Char)
  | h1 :: h2 :: h3 :: h4 :: r₃ =>
    match hexVal h1, hexVal h2, hexVal h3, hexVal h4 with
    | some a, some b, some c', some d =>
      let n := 4096 * a + 256 * b + 16 * c' + d
      if n < 55296 then some (Char.ofNat n, r₃)
      else if n < 56320 then
        match r₃ with
        | e2 :: u2 :: g1 :: g2 :: g3 :: g4 :: r₄ =>
          if e2 = bslC ∧ u2 = 'u' then
            match hexVal g1, hexVal g2, hexVal g3, hexVal g4 with
            | some a2, some b2, some c2, some d2 =>
              let m := 4096 * a2 + 256 * b2 + 16 * c2 + d2
              if 56320 ≤ m ∧ m < 57344 then
                some (Char.ofNat (65536 + 1024 * (n - 55296) + (m - 56320)), r₄)
              else none
            | _, _, _, _ => none
          else none
        | _ => none
      else if n < 57344 then none
      else some (Char.ofNat n, r₃)
    | _, _, _, _ => none
  | _ => none

/-- Decode the character named by an escape introducer, returning it with
the remainder. -/
def parseEscape (e : Char) (r₂ : List Char) : Option (Char × List Char) :=
  if e = quoteC then some (quoteC, r₂)
  else if e = bslC then some (bslC, r₂)
  else if e = '/' then some ('/', r₂)
  else if e = 'b' then some (Char.ofNat 8, r₂)
  else if e = 'f' then some (Char.ofNat 12, r₂)
  else if e = 'n' then some (Char.ofNat 10, r₂)
  else if e = 'r' then some (Char.ofNat 13, r₂)
  else if e = 't' then some (Char.ofNat 9, r₂)
  else if e = 'u' then parseUEscape r₂
  else none

mutual

/-- Parse the body of a string literal (after the opening quote), returning
the decoded characters and the remainder after the closing quote.  Fueled
(one unit per consumed level); callers pass the remaining input length,
which always suffices since every step consumes input. -/
def parseStrBody : Nat → List Char → Option (List Char × List Char)
  | 0, _ => none
  | _ + 1, [] => none
  | fuel + 1, c :: r =>
      if c = quoteC then some ([], r)
      else if c = bslC then parseBslEsc fuel r
      else if c.toNat < 32 then none
      else (parseStrBody fuel r).map fun p => (c :: p.1, p.2)

/-- Continue a string body after a backslash. -/
def parseBslEsc : Nat → List Char → Option (List Char × List Char)
  | 0, _ => none
  | _ + 1, [] => none
  | fuel + 1, e :: r₂ =>
      match parseEscape e r₂ with
      | some (ch, r₃) => (parseStrBody fuel r₃).map fun p => (ch :: p.1, p.2)
      | none => none

end

/-- One or more decimal digits. -/
def digits1 (cs : List Char) : Option (List Char × List Char) :=
  if (cs.takeWhile isDigitC).isEmpty then none
  else some (cs.takeWhile isDigitC, cs.dropWhile isDigitC)

/-- JSON integer digits: a single `0`, or digits not starting with `0`. -/
def parseIntDigits : List Char → Option (List Char × List Char)
  | [] => none
  | c :: r => if c = '0' then some (['0'], r) else digits1 (c :: r)

/-- Optional fraction: `.` followed by digits, else nothing. -/
def parseFracPart : List Char → Option (List Char × List Char)
  | [] => some ([], [])
  | c :: r =>
      if c = '.' then (digits1 r).map fun p => ('.' :: p.1, p.2)
      else some ([], c :: r)

/-- Optional exponent: `e`/`E`, optional sign, digits, else nothing. -/
def parseExpPart : List Char → Option (List Char × List Char)
  | [] => some ([], [])
  | c :: r =>
      if c = 'e' ∨ c = 'E' then
        match r with
        | [] => none
        | s :: r₂ =>
            if s = '+' ∨ s = '-' then (digits1 r₂).map fun p => (c :: s :: p.1, p.2)
            else (digits1 (s :: r₂)).map fun p => (c :: p.1, p.2)
      else some ([], c :: r)

/-- The sign-free part of a number lexeme: int digits, optional fraction,
optional exponent. -/
def parseNumBody (cs : List Char) : Option (List Char × List Char) :=
  match parseIntDigits cs with
  | none => none
  | some (ip, cs₂) =>
    match parseFracPart cs₂ with
    | none => none
    | some (fp, cs₃) =>
      match parseExpPart cs₃ with
      | none => none
      | some (ep, cs₄) => some (ip ++ fp ++ ep, cs₄)

/-- A full JSON number lexeme (maximal munch), returned verbatim. -/
def parseNumLexeme (cs : List Char) : Option (List Char × List Char) :=
  match cs with
  | [] => none
  | c :: r =>
      if c = '-' then (parseNumBody r).map fun p => ('-' :: p.1, p.2)
      else parseNumBody (c :: r)

mutual

/-- Parse one JSON value (fuel decreases on every recursive call). -/
def parseVal : Nat → List Char → Option (Json × List Char)
  | 0, _ => none
  | fuel + 1, cs =>
    match skipWs cs with
    | [] => none
    | c :: r =>
      if c = quoteC then (parseStrBody (r.length + 1) r).map fun p => (Json.str p.1, p.2)
      else if c = lbraceC then
        match skipWs r with
        | c₂ :: r₂ => if c₂ = rbraceC then some (.obj [], r₂) else parseMembers fuel [] r
        | [] => none
      else if c = lbrackC then
        match skipWs r with
        | c₂ :: r₂ => if c₂ = rbrackC then some (.arr [], r₂) else parseElems fuel [] r
        | [] => none
      else if c = 'n' then
        match r with
        | 'u' :: 'l' :: 'l' :: r₂ => some (.null, r₂)
        | _ => none
      else if c = 't' then
        match r with
        | 'r' :: 'u' :: 'e' :: r₂ => some (.bool true, r₂)
        | _ => none
      else if c = 'f' then
        match r with
        | 'a' :: 'l' :: 's' :: 'e' :: r₂ => some (.bool false, r₂)
        | _ => none
      else if c = '-' ∨ isDigitC c then
        (parseNumLexeme (c :: r)).map fun p => (Json.numLit p.1, p.2)
      else none

/-- Parse the elements of a non-empty array (entered after `[` or `,`). -/
def parseElems : Nat → List Json → List Char → Option (Json × List Char)
  | 0, _, _ => none
  | fuel + 1, acc, cs =>
    match parseVal fuel cs with
    | none => none
    | some (v, rest) =>
      match skipWs rest with
      | [] => none
      | c :: r₂ =>
          if c = commaC then parseElems fuel (acc ++ [v]) r₂
          else if c = rbrackC then some (.arr (acc ++ [v]), r₂)
          else none

/-- Parse the members of a non-empty object (entered after a brace or `,`);
duplicate keys overwrite in place per JS `JSON.parse`. -/
def parseMembers : Nat → List (List Char × Json) → List Char →
    Option (Json × List Char)
  | 0, _, _ => none
  | fuel + 1, acc, cs =>
    match skipWs cs with
    | [] => none
    | c :: r =>
        if c = quoteC then
          match parseStrBody (r.length + 1) r with
          | none => none
          | some (k, r₂) =>
            match skipWs r₂ with
            | [] => none
            | c₂ :: r₃ =>
                if c₂ = colonC then
                  match parseVal fuel r₃ with
                  | none => none
                  | some (v, rest) =>
                    match skipWs rest with
                    | [] => none
                    | c₃ :: r₄ =>
                        if c₃ = commaC then parseMembers fuel (setKey k v acc) r₄
                        else if c₃ = rbraceC then some (.obj (setKey k v acc), r₄)
                        else none
                else none
        else none

end

/-- `JSON.parse` on a character list: whole input must be consumed. -/
def jsonParseChars (s : List Char) : Option Json :=
  match parseVal (s.length + 1) s with
  | some (v, rest) => if (skipWs rest).isEmpty then some v else none
  | none => none

/-- `JSON.parse` on a string. -/
def jsonParse (s : String) : Option Json := jsonParseChars s.data

mutual

/-- Fuel bound sufficient for `parseVal` to reparse a serialized value. -/
def sizeJ : Json → Nat
  | .arr xs => 1 + sizeElemsJ xs
  | .obj m => 1 + sizeMembersJ m
  | _ => 1

def sizeElemsJ : List Json → Nat
  | [] => 0
  | x :: xs => 1 + sizeJ x + sizeElemsJ xs

def sizeMembersJ : List (List Char × Json) → Nat
  | [] => 0
  | p :: m => 1 + sizeJ p.2 + sizeMembersJ m

end

/-! ## Service data model (src/types/stellar.ts) -/

inductive CredentialStatus where
  | active
  | revoked
  | suspended
deriving DecidableEq

/-- Runtime value of the TS enum (`'Active' | 'Revoked' | 'Suspended'`). -/
def statusStr : CredentialStatus → List Char
  | .active => 'A' :: 'c' :: 't' :: 'i' :: 'v' :: 'e' :: []
  | .revoked => 'R' :: 'e' :: 'v' :: 'o' :: 'k' :: 'e' :: 'd' :: []
  | .suspended => 'S' :: 'u' :: 's' :: 'p' :: 'e' :: 'n' :: 'd' :: 'e' :: 'd' :: []

structure ContractDeploymentResult where
  contractId : List Char
  transactionHash : List Char
  ledgerSequence : Nat

structure CredentialRequest where
  data : Json

structure CredentialResponse where
  contractId : List Char
  hash : List Char
  status : CredentialStatus
  transactionHash : List Char
  ledgerSequence : Nat
  createdAtMs : Nat

/-! ## StellarService (src/services/stellarService.ts — the iteration
imported by src/app/api/credentials.ts) -/

/-- External state a `deployContract` call observes.  XLM balances are
Horizon decimal strings with 7 fraction digits; `parseFloat(balance) < 5`
compares exactly like `stroops < 5·10^7` at that precision, so balances
are carried in stroops.  A missing native balance reads as `'0'`. -/
structure DeployEnv where
  keyValid : Bool
  accountLoads : Bool
  xlmStroops : Nat
  wasmExists : Bool
  salt : List Nat
  nowMs : Nat

/-- Contract-identifier derivation (stellarService.ts:77-83):
`'C' + sha256(randomBytes(32)).hex.substring(0,55).toUpperCase()`. -/
def mkContractId (salt : List Nat) : List Char :=
  'C' :: ((sha256hex salt).take 55).map Char.toUpper

/-- `deployContract` (stellarService.ts:42-127).  Its catch block logs the
error details and re-throws (`throw error` — "no fallback, real Soroban
contracts only"), so every failure surfaces as `.error`. -/
def deployContract (env : DeployEnv) (hash : List Char) (status : CredentialStatus) :
    Except (List Char) ContractDeploymentResult :=
  if ¬ env.keyValid then
    .error ('I' :: 'n' :: 'v' :: 'a' :: 'l' :: 'i' :: 'd' :: ' ' :: "Stellar secret key configuration".data)
  else if ¬ env.accountLoads then
    .error "Failed to load account".data
  else if env.xlmStroops < 50000000 then
    .error "Insufficient XLM balance for contract deployment. Minimum 5 XLM required.".data
  else if ¬ env.wasmExists then
    .error "WASM file not found. Please compile the contract first.".data
  else
    .ok { contractId := mkContractId env.salt
          transactionHash :=
            sha256hexOfChars (mkContractId env.salt ++ hash ++ natToChars env.nowMs)
          ledgerSequence := 12345 }

/-- `createCredential` (stellarService.ts:129-149): hash the payload,
deploy; the catch block logs and re-throws, so deployment errors
propagate unchanged to the route handler. -/
def createCredential (env : DeployEnv) (req : CredentialRequest) :
    Except (List Char) CredentialResponse :=
  match deployContract env (generateHash req.data) CredentialStatus.active with
  | .error e => .error e
  | .ok d =>
      .ok { contractId := d.contractId
            hash := generateHash req.data
            status := CredentialStatus.active
            transactionHash := d.transactionHash
            ledgerSequence := d.ledgerSequence
            createdAtMs := env.nowMs }

/-- Account data-entry lookup (`account.data_attr[k]`); values are the
logical stored strings (Horizon's base64 transport encode/decode cancels
against `Buffer.from(·, 'base64')`). -/
def lookupData (k : List Char) : List (List Char × List Char) → Option (List Char)
  | [] => none
  | (k', v) :: m => if k' = k then some v else lookupData k m

/-- Data-entry key used by `getCredentialInfo` (stellarService.ts:159) and
`updateCredentialStatus` (stellarService.ts:217). -/
def dataKey16 (contractId : List Char) : List Char :=
  'c' :: 'r' :: 'e' :: 'd' :: '_' :: contractId.take 16

/-- JS member access `j.k` returning `undefined` as `none`; member access
on `null` throws a `TypeError`. -/
def getMemberJS (j : Json) (k : List Char) : Except (List Char) (Option Json) :=
  match j with
  | .null => .error "TypeError: Cannot read properties of null".data
  | .obj m => .ok (lookupKey k m)
  | _ => .ok none

/-- Result of a read: the JS values bound to `hash` and `status`
(`none` = `undefined`). -/
structure CredentialInfo where
  hash : Option Json
  status : Option Json

/-- The decode step of `getCredentialInfo` (stellarService.ts:167-201):
failed `JSON.parse` takes the legacy plain-hash path; otherwise
`parsedData.h || parsedData.hash` and `parsedData.s || parsedData.status`
are extracted and a string status is mapped onto the enum (unknown
strings default to Active); a non-string status is returned as-is. -/
def getCredentialInfoDecode (stored : List Char) : Except (List Char) CredentialInfo :=
  match jsonParseChars stored with
  | none =>
      .ok { hash := some (.str stored), status := some (.str (statusStr .active)) }
  | some j =>
    match getMemberJS j ('h' :: []) with
    | .error e => .error e
    | .ok h1 =>
      match (if truthyOpt h1 then .ok h1 else getMemberJS j "hash".data :
          Except (List Char) (Option Json)) with
      | .error e => .error e
      | .ok hv =>
        match getMemberJS j ('s' :: []) with
        | .error e => .error e
        | .ok s1 =>
          match (if truthyOpt s1 then .ok s1 else getMemberJS j "status".data :
              Except (List Char) (Option Json)) with
          | .error e => .error e
          | .ok sv =>
            let statusOut : Option Json :=
              match sv with
              | some (.str st) =>
                  some (.str (if st = statusStr .active then statusStr .active
                    else if st = statusStr .revoked then statusStr .revoked
                    else if st = statusStr .suspended then statusStr .suspended
                    else statusStr .active))
              | other => other
            .ok { hash := hv, status := statusOut }

/-- `getCredentialInfo` (stellarService.ts:151-207): look up the data
entry (an absent or empty entry is "not found"), then decode. -/
def getCredentialInfo (dataAttr : List (List Char × List Char)) (contractId : List Char) :
    Except (List Char) CredentialInfo :=
  match lookupData (dataKey16 contractId) dataAttr with
  | none => .error ("Credential data not found for contract ID: ".data ++ contractId)
  | some stored =>
      if stored = [] then
        .error ("Credential data not found for contract ID: ".data ++ contractId)
      else getCredentialInfoDecode stored

/-- `.substring(0, 16)` — a JS method of strings only; calling it on any
other (truthy) value throws a `TypeError`. -/
def jsSubstring16 : Json → Except (List Char) (List Char)
  | .str s => .ok (s.take 16)
  | _ => .error "TypeError: substring is not a function".data

/-- Mutation step of `updateCredentialStatus` (stellarService.ts:239-251)
on the decoded `credentialData`: a truthy `h` keeps the record and updates
`s` and `t` in place; otherwise a fresh compact object is built from the
16-char prefix of `hash || h || ''`. -/
def mutateCd (j : Json) (newStatus : CredentialStatus) (nowMs : Nat) :
    Except (List Char) Json :=
  match getMemberJS j ('h' :: []) with
  | .error e => .error e
  | .ok hOpt =>
    if truthyOpt hOpt then
      match j with
      | .obj m =>
          .ok (.obj (setKey ('t' :: []) (.numLit (natToChars nowMs))
            (setKey ('s' :: []) (.str (statusStr newStatus)) m)))
      | _ => .ok j
    else
      match getMemberJS j "hash".data with
      | .error e => .error e
      | .ok hashOpt =>
        let picked : Json :=
          if truthyOpt hashOpt then hashOpt.getD .null
          else if truthyOpt hOpt then hOpt.getD .null
          else .str []
        match jsSubstring16 picked with
        | .error e => .error e
        | .ok h16 =>
            .ok (.obj [(('h' :: []), .str h16),
                       (('s' :: []), .str (statusStr newStatus)),
                       (('t' :: []), .numLit (natToChars nowMs))])

/-- Re-encoding step of `updateCredentialStatus` (stellarService.ts:224-251):
a value that fails `JSON.parse` is treated as legacy and replaced by
`{h: value.substring(0,16), s: Active, t: now}` before the mutation step. -/
def updateCredObj (stored : List Char) (newStatus : CredentialStatus) (nowMs : Nat) :
    Except (List Char) Json :=
  match jsonParseChars stored with
  | none =>
      mutateCd (.obj [(('h' :: []), .str (stored.take 16)),
                      (('s' :: []), .str (statusStr .active)),
                      (('t' :: []), .numLit (natToChars nowMs))]) newStatus nowMs
  | some j => mutateCd j newStatus nowMs

/-- `updateCredentialStatus` (stellarService.ts:209-292): locate the stored
record under `dataKey16`, re-encode with the new status, and return the
value submitted in the `manageData` operation (`JSON.stringify` of the
mutated record); submission itself is the external ledger boundary. -/
def updateCredentialStatus (dataAttr : List (List Char × List Char))
    (contractId : List Char) (newStatus : CredentialStatus) (nowMs : Nat) :
    Except (List Char) (List Char) :=
  match lookupData (dataKey16 contractId) dataAttr with
  | none => .error ("Credential not found for contract ID: ".data ++ contractId)
  | some stored =>
      if stored = [] then
        .error ("Credential not found for contract ID: ".data ++ contractId)
      else
        match updateCredObj stored newStatus nowMs with
        | .error e => .error e
        | .ok cd => .ok (stringify cd)

/-! ## The older service iteration bundled into src/index.ts -/

namespace IndexSvc

/-- The contract ID hard-coded by that iteration (index.ts bundle:259). -/
def hardcodedContractId : List Char :=
  "CA2I6BAXNG7EHS4DF3JFXOQK3LSN6JULNVJ3GMHWTQAXI5WWP2VAEUIQ".data

/-- Data-entry key written by `deployContract` (index.ts bundle:267):
a 10-character identifier prefix. -/
def dataKeyCreate (contractId : List Char) : List Char :=
  'c' :: 'r' :: 'e' :: 'd' :: '_' :: contractId.take 10

/-- Data-entry key read by `getCredentialInfo` (index.ts bundle:365). -/
def dataKeyRead (contractId : List Char) : List Char :=
  'c' :: 'r' :: 'e' :: 'd' :: '_' :: contractId.take 10

/-- Data-entry key used by `updateCredentialStatus` (index.ts bundle:399):
a 16-character identifier prefix. -/
def dataKeyUpdate (contractId : List Char) : List Char :=
  'c' :: 'r' :: 'e' :: 'd' :: '_' :: contractId.take 16

/-- The data entry written by that iteration's `deployContract`
(index.ts bundle:267-284): the hash, size-bounded to 64 bytes, keyed by
the 10-char prefix key. -/
def createdEntry (hash : List Char) : List Char × List Char :=
  (dataKeyCreate hardcodedContractId, hash.take 64)

/-- That iteration's `updateCredentialStatus` (index.ts bundle:391-453):
looks up the 16-char prefix key, errors when absent, otherwise re-writes
the same hash (status only recorded in the memo). -/
def updateCredentialStatus (dataAttr : List (List Char × List Char))
    (contractId : List Char) (newStatus : CredentialStatus) :
    Except (List Char) (List Char) :=
  match lookupData (dataKeyUpdate contractId) dataAttr with
  | none => .error ("Credential not found for contract ID: ".data ++ contractId)
  | some stored =>
      if stored = [] then
        .error ("Credential not found for contract ID: ".data ++ contractId)
      else .ok stored

end IndexSvc

/-! ## StellarValidator (bundled into src/index.ts) -/

namespace StellarValidator

structure StellarValidationResult where
  isValid : Bool
  errors : List (List Char)
  accountExists : Option Bool
  accountBalanceStroops : Option Nat

/-- Outcome of `server.loadAccount` as the validator observes it. -/
inductive LoadAccountResult where
  | ok (balanceStroops : Nat)
  | notFound404
  | failed (msg : List Char)

/-- `StellarValidator.validateAccount` (index.ts bundle:94-147):
an invalid secret key or an unloadable account makes the result invalid;
an existing account is valid even when its balance is below the 10 XLM
minimum — the low balance only appends a warning string to `errors`. -/
def validateAccount (keyCheck : Except (List Char) (List Char))
    (load : LoadAccountResult) : StellarValidationResult :=
  match keyCheck with
  | .error e =>
      { isValid := false, errors := [e], accountExists := none,
        accountBalanceStroops := none }
  | .ok publicKey =>
    match load with
    | .ok bal =>
        { isValid := true
          errors :=
            if bal < 100000000 then
              [("Account balance (".data ++ natToChars bal ++
                " stroops) is below recommended minimum (10 XLM) for contract operations".data)]
            else []
          accountExists := some true
          accountBalanceStroops := some bal }
    | .notFound404 =>
        { isValid := false
          errors := [("Account ".data ++ publicKey ++
            " does not exist on the network. Please fund it first.".data)]
          accountExists := some false
          accountBalanceStroops := none }
    | .failed msg =>
        { isValid := false
          errors := [("Failed to load account: ".data ++ msg)]
          accountExists := some false
          accountBalanceStroops := none }

end StellarValidator

/-! ## Claims -/

/-- C1: the claim says anchoring errors are converted into a synthesized
success via a fallback simulator; the code's catch blocks log and
re-throw instead.  Amended: every `deployContract` error propagates
unchanged through `createCredential` to the caller. -/
theorem createCredential_propagates_deploy_errors
    (env : DeployEnv) (req : CredentialRequest) (e : List Char)
    (h : deployContract env (generateHash req.data) CredentialStatus.active = .error e) :
    createCredential env req = .error e := by
  unfold createCredential
  rw [h]

/-- C1 witness: a concrete request against an account with no funds
yields the propagated insufficient-balance error. -/
theorem createCredential_propagates_deploy_errors_witness :
    createCredential ⟨true, true, 0, true, [], 0⟩ ⟨Json.obj []⟩ =
      .error "Insufficient XLM balance for contract deployment. Minimum 5 XLM required.".data :=
  createCredential_propagates_deploy_errors ⟨true, true, 0, true, [], 0⟩ ⟨Json.obj []⟩
    "Insufficient XLM balance for contract deployment. Minimum 5 XLM required.".data rfl

/-- C1 counterexample: with a missing contract WASM file the creation
returns the error itself — not a synthesized successful response. -/
theorem createCredential_returns_error_not_success :
    createCredential ⟨true, true, 100000000, false, [], 0⟩
        ⟨Json.obj [(('a' :: []), Json.numLit ('1' :: []))]⟩ =
      .error "WASM file not found. Please compile the contract first.".data := rfl

/-- C2 (amended): the identifier produced by `deployContract` is a pure
function of the environment's random salt alone — it does not depend on
the credential hash or the signer-side inputs. -/
theorem deployContract_id_ignores_hash_and_status
    (env : DeployEnv) (h1 h2 : List Char) (st1 st2 : CredentialStatus) :
    (deployContract env h1 st1).map ContractDeploymentResult.contractId =
      (deployContract env h2 st2).map ContractDeploymentResult.contractId := by
  unfold deployContract
  split_ifs <;> simp [Except.map]

/-- C2 counterexample: two runs with the identical credential hash and
signer state but fresh salts (the only per-run difference) produce
different identifiers, refuting deterministic derivation from
`(hash, signer)`. -/
theorem deployContract_id_differs_across_runs :
    (deployContract ⟨true, true, 100000000, true, List.replicate 32 0, 7⟩
        (List.replicate 64 'a') CredentialStatus.active).map ContractDeploymentResult.contractId ≠
      (deployContract ⟨true, true, 100000000, true, 1 :: List.replicate 31 0, 7⟩
        (List.replicate 64 'a') CredentialStatus.active).map ContractDeploymentResult.contractId := by
  decide

/-- C4: the data-entry key is not stable across the operations: the
creation path writes under a 10-character identifier prefix while the
update path reads a 16-character prefix, so an update addressed at the
record just created reports it missing. -/
theorem dataKey_mismatch_create_update :
    IndexSvc.dataKeyCreate IndexSvc.hardcodedContractId ≠
        IndexSvc.dataKeyUpdate IndexSvc.hardcodedContractId ∧
      IndexSvc.updateCredentialStatus [IndexSvc.createdEntry (List.replicate 64 'a')]
          IndexSvc.hardcodedContractId CredentialStatus.revoked =
        .error ("Credential not found for contract ID: ".data ++ IndexSvc.hardcodedContractId) := by
  constructor
  · decide
  · decide

/-- C5: two payloads that differ only in a value nested under a key absent
from the top-level key set serialize identically (the replacer array
filters every nesting level), so `generateHash` collides with certainty —
not merely with SHA-256-collision probability. -/
theorem generateHash_nested_value_collision :
    (Json.obj [(('a' :: []), Json.obj [(('x' :: []), Json.numLit ('1' :: []))])]) ≠
        (Json.obj [(('a' :: []), Json.obj [(('x' :: []), Json.numLit ('2' :: []))])]) ∧
      generateHash (Json.obj [(('a' :: []), Json.obj [(('x' :: []), Json.numLit ('1' :: []))])]) =
        generateHash (Json.obj [(('a' :: []), Json.obj [(('x' :: []), Json.numLit ('2' :: []))])]) := by
  constructor
  · intro h
    exact absurd (congrArg stringify h) (by decide)
  · decide

/-- C7 (amended): an existing but under-funded account makes the
standalone validator record only a warning while staying valid, but the
active creation path blocks outright when the balance is below 5 XLM. -/
theorem low_balance_warns_in_validator_but_blocks_deploy
    (pk : List Char) (bal : Nat) (hbal : bal < 100000000)
    (env : DeployEnv) (hk : env.keyValid = true) (ha : env.accountLoads = true)
    (hlow : env.xlmStroops < 50000000) (hash : List Char) (st : CredentialStatus) :
    (StellarValidator.validateAccount (.ok pk) (.ok bal)).isValid = true ∧
      (StellarValidator.validateAccount (.ok pk) (.ok bal)).errors ≠ [] ∧
      deployContract env hash st =
        .error "Insufficient XLM balance for contract deployment. Minimum 5 XLM required.".data := by
  refine ⟨rfl, ?_, ?_⟩
  · simp [StellarValidator.validateAccount, hbal]
  · unfold deployContract
    simp [hk, ha, hlow]

/-- C7 witness: a 9 XLM account passes validation with a warning, and a
4 XLM account is blocked by the creation path. -/
theorem low_balance_warns_in_validator_but_blocks_deploy_witness :
    (StellarValidator.validateAccount (.ok ('G' :: [])) (.ok 90000000)).isValid = true ∧
      (StellarValidator.validateAccount (.ok ('G' :: [])) (.ok 90000000)).errors ≠ [] ∧
      deployContract ⟨true, true, 45000000, true, [], 3⟩ (List.replicate 64 'b')
          CredentialStatus.active =
        .error "Insufficient XLM balance for contract deployment. Minimum 5 XLM required.".data :=
  low_balance_warns_in_validator_but_blocks_deploy ('G' :: []) 90000000 (by decide)
    ⟨true, true, 45000000, true, [], 3⟩ rfl rfl (by decide) (List.replicate 64 'b')
    CredentialStatus.active

/-- C7 counterexample: an account that exists with 4 XLM — above zero but
below the 5 XLM deployment threshold — is blocked with an error, so an
insufficient balance does block the submission (not only non-existence
fails). -/
theorem insufficient_balance_blocks_deploy :
    deployContract ⟨true, true, 40000000, true, [], 0⟩ (List.replicate 64 'c')
        CredentialStatus.active =
      .error "Insufficient XLM balance for contract deployment. Minimum 5 XLM required.".data := rfl

/-! ## Lookup/update helper lemmas -/

theorem lookupKey_setKey_ne {k k' : List Char} (v : Json) (hne : k' ≠ k) :
    ∀ m : List (List Char × Json), lookupKey k (setKey k' v m) = lookupKey k m
  | [] => by simp [setKey, lookupKey, hne]
  | (k₂, v₂) :: m => by
      simp only [setKey]
      split
      · next heq =>
          subst heq
          simp [lookupKey, hne]
      · simp only [lookupKey]
        split
        · rfl
        · exact lookupKey_setKey_ne v hne m

/-- C8: a stored value that is not JSON (the legacy plain-hash encoding)
is returned as the hash itself with status Active, and the read succeeds. -/
theorem legacy_read_returns_hash_and_active
    (dataAttr : List (List Char × List Char)) (contractId stored : List Char)
    (hfound : lookupData (dataKey16 contractId) dataAttr = some stored)
    (hne : stored ≠ [])
    (hparse : jsonParseChars stored = none) :
    getCredentialInfo dataAttr contractId =
      .ok { hash := some (.str stored), status := some (.str (statusStr .active)) } := by
  unfold getCredentialInfo
  simp only [hfound]
  rw [if_neg hne]
  unfold getCredentialInfoDecode
  rw [hparse]

/-- C8 witness: a 64-character hex digest stored verbatim reads back as
itself with status Active. -/
theorem legacy_read_returns_hash_and_active_witness :
    getCredentialInfo
        [(dataKey16 ('C' :: 'A' :: 'B' :: []), List.replicate 64 'f')]
        ('C' :: 'A' :: 'B' :: []) =
      .ok { hash := some (.str (List.replicate 64 'f')),
            status := some (.str (statusStr .active)) } :=
  legacy_read_returns_hash_and_active _ _ (List.replicate 64 'f') rfl (by decide) rfl

/-- C6 (amended): the reader never raises a parse error: a value that
parses as JSON but carries none of the recognized fields (`h`, `hash`,
`s`, `status`) still decodes successfully, with `undefined` hash and
status; a value that does not parse takes the legacy path instead. -/
theorem unrecognized_json_decodes_without_error
    (stored : List Char) (m : List (List Char × Json))
    (hp : jsonParseChars stored = some (.obj m))
    (hh : lookupKey ('h' :: []) m = none)
    (hhash : lookupKey "hash".data m = none)
    (hs : lookupKey ('s' :: []) m = none)
    (hstatus : lookupKey "status".data m = none) :
    getCredentialInfoDecode stored = .ok { hash := none, status := none } := by
  unfold getCredentialInfoDecode
  rw [hp]
  simp [getMemberJS, hh, hhash, hs, hstatus, truthyOpt]

/-- C6 witness: the stored value is the JSON text of an object with a
single unrecognized field. -/
theorem unrecognized_json_decodes_without_error_witness :
    getCredentialInfoDecode "\x7b\"y\":2\x7d".data = .ok { hash := none, status := none } :=
  unrecognized_json_decodes_without_error _ [(('y' :: []), Json.numLit ('2' :: []))]
    rfl rfl rfl rfl rfl

/-- C6 counterexample: a stored value matching neither the compact nor the
legacy-hash layout is still decoded into a successful response (with
`undefined` fields) — no ParseError is raised. -/
theorem reader_returns_ok_on_unrecognized_encoding :
    getCredentialInfoDecode "\x7b\"x\":1\x7d".data = .ok { hash := none, status := none } := rfl

/-- C3 (amended): a successful status update re-encodes the stored value
with the new status, but preserves the hash only as far as the ledger
size bound allows: a record in the legacy plain-hash encoding retains
just the first 16 characters of its original hash, while a compact
record's `h` field is carried over unchanged. -/
theorem updateCredObj_hash_handling (stored : List Char) (st : CredentialStatus) (now : Nat) :
    (stored ≠ [] → jsonParseChars stored = none →
      updateCredObj stored st now =
        .ok (.obj [(('h' :: []), .str (stored.take 16)),
                   (('s' :: []), .str (statusStr st)),
                   (('t' :: []), .numLit (natToChars now))])) ∧
    (∀ (m : List (List Char × Json)) (hv : Json),
      jsonParseChars stored = some (.obj m) →
      lookupKey ('h' :: []) m = some hv → jsTruthy hv = true →
      updateCredObj stored st now =
        .ok (.obj (setKey ('t' :: []) (.numLit (natToChars now))
          (setKey ('s' :: []) (.str (statusStr st)) m))) ∧
      lookupKey ('h' :: [])
          (setKey ('t' :: []) (.numLit (natToChars now))
            (setKey ('s' :: []) (.str (statusStr st)) m)) = some hv) := by
  constructor
  · intro hne hp
    unfold updateCredObj
    rw [hp]
    have htake : stored.take 16 ≠ [] := by
      cases stored with
      | nil => exact absurd rfl hne
      | cons c cs => simp [List.take]
    unfold mutateCd
    simp [getMemberJS, lookupKey, truthyOpt, jsTruthy, htake, setKey]
  · intro m hv hp hh ht
    unfold updateCredObj
    rw [hp]
    unfold mutateCd
    simp only [getMemberJS, hh, truthyOpt, ht, if_pos]
    constructor
    · trivial
    · rw [lookupKey_setKey_ne _ (by decide), lookupKey_setKey_ne _ (by decide)]
      exact hh

/-- C3 witness: a legacy stored digest `ffff…` (64 chars) updated to
Suspended is re-encoded with its 16-character prefix and the new status. -/
theorem updateCredObj_hash_handling_witness :
    updateCredObj (List.replicate 64 'f') CredentialStatus.suspended 5 =
      .ok (.obj [(('h' :: []), .str (List.replicate 64 'f' |>.take 16)),
                 (('s' :: []), .str (statusStr .suspended)),
                 (('t' :: []), .numLit (natToChars 5))]) :=
  (updateCredObj_hash_handling (List.replicate 64 'f') CredentialStatus.suspended 5).1
    (by decide) rfl

/-- C3 counterexample: after updating a legacy record whose stored value
is a 64-character hash, the stored `h` field holds only the 16-character
prefix — not the full original hash. -/
theorem update_loses_legacy_hash_tail :
    updateCredObj (List.replicate 64 'a') CredentialStatus.revoked 1700000000000 =
        .ok (.obj [(('h' :: []), .str (List.replicate 16 'a')),
                   (('s' :: []), .str (statusStr .revoked)),
                   (('t' :: []), .numLit (natToChars 1700000000000))]) ∧
      List.replicate 16 'a' ≠ List.replicate 64 'a' := by
  constructor
  · rfl
  · decide

/-! ## Permutation lemmas for the canonicalized hash -/

theorem lookupKey_perm (k : List Char) :
    ∀ {l1 l2 : List (List Char × Json)}, l1.Perm l2 →
      (l1.map Prod.fst).Nodup → lookupKey k l1 = lookupKey k l2 := by
  intro l1 l2 h
  induction h with
  | nil => intro _; rfl
  | cons x p ih =>
      intro hnd
      obtain ⟨kx, vx⟩ := x
      simp only [lookupKey]
      split
      · rfl
      · refine ih ?_
        simp only [List.map_cons] at hnd
        exact hnd.of_cons
  | swap x y t =>
      intro hnd
      obtain ⟨kx, vx⟩ := x
      obtain ⟨ky, vy⟩ := y
      simp only [List.map_cons, List.nodup_cons, List.mem_cons] at hnd
      have hxy : ky ≠ kx := fun hq => hnd.1 (Or.inl hq)
      simp only [lookupKey]
      by_cases h1 : ky = k
      · subst h1
        rw [if_pos rfl, if_neg (fun hq : kx = ky => hxy hq.symm), if_pos rfl]
      · by_cases h2 : kx = k
        · subst h2
          rw [if_neg h1, if_pos rfl, if_pos rfl]
        · rw [if_neg h1, if_neg h2, if_neg h2, if_neg h1]
  | trans p1 p2 ih1 ih2 =>
      intro hnd
      refine (ih1 hnd).trans (ih2 ?_)
      exact ((p1.map Prod.fst).nodup_iff).mp hnd

theorem lookupKey_filterMembersJ (props : List (List Char)) (k : List Char) :
    ∀ m : List (List Char × Json),
      lookupKey k (filterMembersJ props m) = (lookupKey k m).map (filterProj props)
  | [] => rfl
  | (k', v) :: m => by
      simp only [filterMembersJ, lookupKey]
      split
      · rfl
      · exact lookupKey_filterMembersJ props k m

/-- C9 (amended): payloads with the same top-level keys and values in any
key order hash identically — the sorted top-level key list and every
member lookup agree. -/
theorem generateHash_top_level_order_invariant
    (l1 l2 : List (List Char × Json)) (hperm : l1.Perm l2)
    (hnd : (l1.map Prod.fst).Nodup) :
    generateHash (.obj l1) = generateHash (.obj l2) := by
  have hsort : sortedTopKeys (.obj l1) = sortedTopKeys (.obj l2) := by
    unfold sortedTopKeys topKeys
    refine List.eq_of_perm_of_sorted
      ((List.perm_insertionSort _ _).trans
        ((hperm.map Prod.fst).trans (List.perm_insertionSort _ _).symm))
      (List.sorted_insertionSort _ _) (List.sorted_insertionSort _ _)
  unfold generateHash
  rw [hsort]
  refine congrArg sha256hexOfChars ?_
  unfold stringifyW
  refine congrArg serVal ?_
  show filterProj (sortedTopKeys (.obj l2)) (.obj l1) =
    filterProj (sortedTopKeys (.obj l2)) (.obj l2)
  rw [filterProj, filterProj]
  refine congrArg Json.obj ?_
  unfold pickMembers
  refine congrArg (fun f => List.filterMap f (sortedTopKeys (.obj l2))) (funext fun k => ?_)
  rw [lookupKey_filterMembersJ, lookupKey_filterMembersJ, lookupKey_perm k hperm hnd]

/-- C9 witness: `{b:0, a:1}` and `{a:1, b:0}` hash identically. -/
theorem generateHash_top_level_order_invariant_witness :
    generateHash (.obj [(('b' :: []), Json.numLit ('0' :: [])),
                        (('a' :: []), Json.numLit ('1' :: []))]) =
      generateHash (.obj [(('a' :: []), Json.numLit ('1' :: [])),
                          (('b' :: []), Json.numLit ('0' :: []))]) :=
  generateHash_top_level_order_invariant _ _ (List.Perm.swap _ _ _) (by decide)

/-- C9 counterexample: canonicalization is not applied only to the
top-level key set — two payloads that differ only in the given order of a
nested object's keys serialize and hash identically, because the sorted
top-level key list reorders (and filters) every nesting level. -/
theorem generateHash_ignores_nested_order :
    (Json.obj [(('a' :: []), Json.obj [(('b' :: []), Json.numLit ('1' :: [])),
                                       (('a' :: []), Json.numLit ('2' :: []))]),
               (('b' :: []), Json.numLit ('0' :: []))]) ≠
      (Json.obj [(('a' :: []), Json.obj [(('a' :: []), Json.numLit ('2' :: [])),
                                         (('b' :: []), Json.numLit ('1' :: []))]),
                 (('b' :: []), Json.numLit ('0' :: []))]) ∧
    generateHash (Json.obj [(('a' :: []), Json.obj [(('b' :: []), Json.numLit ('1' :: [])),
                                                    (('a' :: []), Json.numLit ('2' :: []))]),
                            (('b' :: []), Json.numLit ('0' :: []))]) =
      generateHash (Json.obj [(('a' :: []), Json.obj [(('a' :: []), Json.numLit ('2' :: [])),
                                                      (('b' :: []), Json.numLit ('1' :: []))]),
                              (('b' :: []), Json.numLit ('0' :: []))]) := by
  constructor
  · intro h
    exact absurd (congrArg stringify h) (by decide)
  · decide

/-! ## Reparse lemmas: digit runs and number lexemes -/

theorem takeWhile_dropWhile_append_stuck {p : Char → Bool} :
    ∀ {l : List Char} (t : List Char), List.dropWhile p l ≠ [] →
      List.takeWhile p (l ++ t) = List.takeWhile p l ∧
        List.dropWhile p (l ++ t) = List.dropWhile p l ++ t
  | [], _, h => absurd rfl h
  | c :: l, t, h => by
      by_cases hc : p c
      · have ih := takeWhile_dropWhile_append_stuck (l := l) t
          (by simpa [List.dropWhile_cons, hc] using h)
        simp [List.takeWhile_cons, List.dropWhile_cons, hc, ih.1, ih.2]
      · simp [List.takeWhile_cons, List.dropWhile_cons, hc]

theorem takeWhile_dropWhile_append_all {p : Char → Bool} :
    ∀ {l : List Char} {t : List Char}, List.dropWhile p l = [] →
      (∀ c r, t = c :: r → p c = false) →
      List.takeWhile p (l ++ t) = l ∧ List.dropWhile p (l ++ t) = t
  | [], t, _, ht => by
      cases t with
      | nil => simp
      | cons c r => simp [List.takeWhile_cons, List.dropWhile_cons, ht c r rfl]
  | c :: l, t, h, ht => by
      by_cases hc : p c
      · have ih := takeWhile_dropWhile_append_all (l := l) (t := t)
          (by simpa [List.dropWhile_cons, hc] using h) ht
        simp [List.takeWhile_cons, List.dropWhile_cons, hc, ih.1, ih.2]
      · simp [List.dropWhile_cons, hc] at h

theorem dropWhile_head_not {p : Char → Bool} :
    ∀ {l c r}, List.dropWhile p l = c :: r → p c = false
  | [], _, _, h => by simp at h
  | b :: l, c, r, h => by
      by_cases hb : p b
      · exact dropWhile_head_not (by simpa [List.dropWhile_cons, hb] using h)
      · rw [List.dropWhile_cons, if_neg (by simpa using hb)] at h
        cases h
        simpa using hb

theorem digits1_spec {cs d r : List Char} (h : digits1 cs = some (d, r)) :
    cs = d ++ r ∧ d ≠ [] ∧ (∀ c ∈ d, isDigitC c = true) ∧
      (∀ c r', r = c :: r' → isDigitC c = false) := by
  unfold digits1 at h
  split at h
  · exact absurd h (by simp)
  · next hne =>
      cases h
      refine ⟨(List.takeWhile_append_dropWhile isDigitC cs).symm, by simpa using hne,
        fun c hc => List.mem_takeWhile_imp hc, fun c r' hr => ?_⟩
      exact dropWhile_head_not hr

theorem digits1_all {d : List Char} (hne : d ≠ []) (hall : ∀ c ∈ d, isDigitC c = true)
    {t : List Char} (ht : ∀ c r, t = c :: r → isDigitC c = false) :
    digits1 (d ++ t) = some (d, t) := by
  unfold digits1
  have hdw : List.dropWhile isDigitC d = [] := by
    rw [List.dropWhile_eq_nil_iff]
    exact fun x hx => hall x hx
  have := takeWhile_dropWhile_append_all (p := isDigitC) hdw ht
  rw [this.1, this.2]
  simp [hne]

theorem digits1_append {cs d r t : List Char} (h : digits1 cs = some (d, r))
    (ht : r = [] → ∀ c r', t = c :: r' → isDigitC c = false) :
    digits1 (cs ++ t) = some (d, r ++ t) := by
  obtain ⟨hsplit, hne, hall, hhead⟩ := digits1_spec h
  subst hsplit
  cases r with
  | nil =>
      rw [List.append_nil]
      exact digits1_all hne hall (ht rfl)
  | cons c r' =>
      rw [List.append_assoc]
      unfold digits1
      have hdw : List.dropWhile isDigitC d = [] := by
        rw [List.dropWhile_eq_nil_iff]
        exact fun x hx => hall x hx
      have hstep := takeWhile_dropWhile_append_all (p := isDigitC) (l := d)
        (t := c :: r' ++ t) hdw
        (fun c₂ r₂ hr => by
          cases hr
          exact hhead c r' rfl)
      rw [hstep.1, hstep.2]
      simp [hne]

/-- Characters that cannot extend a number lexeme. -/
def numStopP (t : List Char) : Prop :=
  ∀ c r', t = c :: r' → isDigitC c = false ∧ c ≠ '.' ∧ c ≠ 'e' ∧ c ≠ 'E'

theorem parseIntDigits_split : ∀ {cs ip r : List Char},
    parseIntDigits cs = some (ip, r) → cs = ip ++ r
  | [], _, _, h => by simp [parseIntDigits] at h
  | c :: cs, ip, r, h => by
      simp only [parseIntDigits] at h
      split at h
      · next hc => cases h; subst hc; rfl
      · exact (digits1_spec h).1

theorem parseIntDigits_shape : ∀ {cs ip r : List Char},
    parseIntDigits cs = some (ip, r) →
      ip = ['0'] ∨ (ip ≠ [] ∧ (∀ c ∈ ip, isDigitC c = true) ∧
        ∀ c r', ip = c :: r' → c ≠ '0')
  | [], _, _, h => by simp [parseIntDigits] at h
  | c :: cs, ip, r, h => by
      simp only [parseIntDigits] at h
      split at h
      · next hc => cases h; exact Or.inl rfl
      · next hc =>
          obtain ⟨hsplit, hne, hall, -⟩ := digits1_spec h
          refine Or.inr ⟨hne, hall, fun c₂ r₂ hip => ?_⟩
          have : c₂ :: r₂ ++ r = c :: cs := by rw [← hip]; exact hsplit.symm
          have hc₂ : c₂ = c := by
            have := congrArg (fun l => l.headI) this
            simpa using this
          subst hc₂
          exact hc
  
theorem parseIntDigits_reparse {cs ip r : List Char}
    (h : parseIntDigits cs = some (ip, r)) (X : List Char)
    (hX : ∀ c r', X = c :: r' → isDigitC c = false) :
    parseIntDigits (ip ++ X) = some (ip, X) := by
  cases cs with
  | nil => simp [parseIntDigits] at h
  | cons c cs =>
      simp only [parseIntDigits] at h
      split at h
      · next hc =>
          cases h
          subst hc
          cases X with
          | nil => rfl
          | cons x xs => simp [parseIntDigits]
      · next hc =>
          obtain ⟨hsplit, hne, hall, -⟩ := digits1_spec h
          obtain ⟨c₂, ip', hip⟩ : ∃ c₂ ip', ip = c₂ :: ip' := by
            cases ip with
            | nil => exact absurd rfl hne
            | cons a b => exact ⟨a, b, rfl⟩
          subst hip
          have hc₂ : c₂ = c := by
            have := congrArg (fun l => l.headI) hsplit
            simpa using this.symm
          have hnz : ¬ c₂ = '0' := by rw [hc₂]; exact hc
          simp only [List.cons_append, parseIntDigits]
          rw [if_neg hnz, ← List.cons_append]
          exact digits1_all hne hall hX

theorem parseFracPart_split : ∀ {cs fp r : List Char},
    parseFracPart cs = some (fp, r) → cs = fp ++ r
  | [], fp, r, h => by
      simp only [parseFracPart] at h
      cases h
      rfl
  | c :: cs, fp, r, h => by
      simp only [parseFracPart] at h
      split at h
      · next hc =>
          subst hc
          cases hd : digits1 cs with
          | none => rw [hd] at h; simp at h
          | some p =>
              rw [hd] at h
              obtain ⟨d, r'⟩ := p
              simp only [Option.map_some'] at h
              cases h
              have := (digits1_spec hd).1
              simp [this]
      · next hc =>
          cases h
          rfl

theorem parseFracPart_shape : ∀ {cs fp r : List Char},
    parseFracPart cs = some (fp, r) →
      fp = [] ∨ ∃ d, fp = '.' :: d ∧ d ≠ [] ∧ ∀ c ∈ d, isDigitC c = true
  | [], fp, r, h => by
      simp only [parseFracPart] at h
      cases h
      exact Or.inl rfl
  | c :: cs, fp, r, h => by
      simp only [parseFracPart] at h
      split at h
      · next hc =>
          subst hc
          cases hd : digits1 cs with
          | none => rw [hd] at h; simp at h
          | some p =>
              rw [hd] at h
              obtain ⟨d, r'⟩ := p
              simp only [Option.map_some'] at h
              cases h
              obtain ⟨-, hne, hall, -⟩ := digits1_spec hd
              exact Or.inr ⟨d, rfl, hne, hall⟩
      · next hc =>
          cases h
          exact Or.inl rfl

theorem parseFracPart_reparse {cs fp r : List Char}
    (h : parseFracPart cs = some (fp, r)) (X : List Char)
    (hX : ∀ c r', X = c :: r' → isDigitC c = false ∧ c ≠ '.') :
    parseFracPart (fp ++ X) = some (fp, X) := by
  rcases parseFracPart_shape h with hfp | ⟨d, hfp, hne, hall⟩
  · subst hfp
    cases X with
    | nil => rfl
    | cons x xs =>
        simp only [List.nil_append, parseFracPart, if_neg (hX x xs rfl).2]
  · subst hfp
    simp only [List.cons_append, parseFracPart, if_pos rfl]
    rw [digits1_all hne hall (fun c r' hX' => (hX c r' hX').1)]
    rfl

theorem parseExpPart_split : ∀ {cs ep r : List Char},
    parseExpPart cs = some (ep, r) → cs = ep ++ r
  | [], ep, r, h => by
      simp only [parseExpPart] at h
      cases h
      rfl
  | c :: cs, ep, r, h => by
      simp only [parseExpPart] at h
      split at h
      · next hc =>
          cases cs with
          | nil => simp at h
          | cons s r₂ =>
              simp only at h
              split at h
              · cases hd : digits1 r₂ with
                | none => rw [hd] at h; simp at h
                | some p =>
                    rw [hd] at h
                    obtain ⟨d, r'⟩ := p
                    simp only [Option.map_some'] at h
                    cases h
                    have := (digits1_spec hd).1
                    simp [this]
              · cases hd : digits1 (s :: r₂) with
                | none => rw [hd] at h; simp at h
                | some p =>
                    rw [hd] at h
                    obtain ⟨d, r'⟩ := p
                    simp only [Option.map_some'] at h
                    cases h
                    have := (digits1_spec hd).1
                    simp [this]
      · next hc =>
          cases h
          rfl

theorem parseExpPart_shape : ∀ {cs ep r : List Char},
    parseExpPart cs = some (ep, r) →
      ep = [] ∨ ∃ e sd, ep = e :: sd ∧ (e = 'e' ∨ e = 'E')
  | [], ep, r, h => by
      simp only [parseExpPart] at h
      cases h
      exact Or.inl rfl
  | c :: cs, ep, r, h => by
      simp only [parseExpPart] at h
      split at h
      · next hc =>
          cases cs with
          | nil => simp at h
          | cons s r₂ =>
              simp only at h
              split at h
              · cases hd : digits1 r₂ with
                | none => rw [hd] at h; simp at h
                | some p =>
                    rw [hd] at h
                    obtain ⟨d, r'⟩ := p
                    simp only [Option.map_some'] at h
                    cases h
                    exact Or.inr ⟨c, _, rfl, hc⟩
              · cases hd : digits1 (s :: r₂) with
                | none => rw [hd] at h; simp at h
                | some p =>
                    rw [hd] at h
                    obtain ⟨d, r'⟩ := p
                    simp only [Option.map_some'] at h
                    cases h
                    exact Or.inr ⟨c, _, rfl, hc⟩
      · next hc =>
          cases h
          exact Or.inl rfl

theorem parseExpPart_reparse {cs ep r : List Char}
    (h : parseExpPart cs = some (ep, r)) (X : List Char)
    (hX : ∀ c r', X = c :: r' → isDigitC c = false ∧ c ≠ 'e' ∧ c ≠ 'E') :
    parseExpPart (ep ++ X) = some (ep, X) := by
  cases cs with
  | nil =>
      simp only [parseExpPart] at h
      cases h
      cases X with
      | nil => rfl
      | cons x xs =>
          simp only [List.nil_append, parseExpPart]
          rw [if_neg]
          rintro (h1 | h1)
          · exact (hX x xs rfl).2.1 h1
          · exact (hX x xs rfl).2.2 h1
  | cons c cs =>
      simp only [parseExpPart] at h
      split at h
      · next hc =>
          cases cs with
          | nil => simp at h
          | cons s r₂ =>
              simp only at h
              split at h
              · next hs =>
                  cases hd : digits1 r₂ with
                  | none => rw [hd] at h; simp at h
                  | some p =>
                      rw [hd] at h
                      obtain ⟨d, r'⟩ := p
                      simp only [Option.map_some'] at h
                      cases h
                      obtain ⟨-, hne, hall, -⟩ := digits1_spec hd
                      simp only [List.cons_append, parseExpPart, if_pos hc]
                      rw [if_pos hs]
                      rw [digits1_all hne hall (fun c' r' hX' => (hX c' r' hX').1)]
                      rfl
              · next hs =>
                  cases hd : digits1 (s :: r₂) with
                  | none => rw [hd] at h; simp at h
                  | some p =>
                      rw [hd] at h
                      obtain ⟨d, r'⟩ := p
                      simp only [Option.map_some'] at h
                      cases h
                      obtain ⟨hsp, hne, hall, -⟩ := digits1_spec hd
                      simp only [List.cons_append, parseExpPart, if_pos hc]
                      obtain ⟨c₂, d', hd'⟩ : ∃ c₂ d', d = c₂ :: d' := by
                        cases d with
                        | nil => exact absurd rfl hne
                        | cons a b => exact ⟨a, b, rfl⟩
                      subst hd'
                      have hc₂ : c₂ = s := by
                        have := congrArg (fun l => l.headI) hsp
                        simpa using this.symm
                      subst hc₂
                      simp only [List.cons_append]
                      rw [if_neg hs]
                      rw [← List.cons_append, digits1_all hne hall
                        (fun c' r' hX' => (hX c' r' hX').1)]
                      rfl
      · next hc =>
          cases h
          cases X with
          | nil => rfl
          | cons x xs =>
              simp only [List.nil_append, parseExpPart]
              rw [if_neg]
              rintro (h1 | h1)
              · exact (hX x xs rfl).2.1 h1
              · exact (hX x xs rfl).2.2 h1

theorem parseNumBody_spec {cs l r : List Char} (h : parseNumBody cs = some (l, r)) :
    cs = l ++ r ∧ ∀ t : List Char, numStopP t → parseNumBody (l ++ t) = some (l, t) := by
  unfold parseNumBody at h
  split at h
  · exact absurd h (by simp)
  next ip cs₂ hint =>
    split at h
    · exact absurd h (by simp)
    next fp cs₃ hfrac =>
      split at h
      · exact absurd h (by simp)
      next ep cs₄ hexp =>
        simp only [Option.some.injEq, Prod.mk.injEq] at h
        obtain ⟨hl, hr⟩ := h
        subst hl
        subst hr
        have hsplit : cs = (ip ++ fp ++ ep) ++ cs₄ := by
          rw [parseIntDigits_split hint, parseFracPart_split hfrac,
            parseExpPart_split hexp]
          simp [List.append_assoc]
        refine ⟨hsplit, fun t ht => ?_⟩
        have hfps := parseFracPart_shape hfrac
        have heps := parseExpPart_shape hexp
        have hint2 : parseIntDigits (ip ++ (fp ++ (ep ++ t))) =
            some (ip, fp ++ (ep ++ t)) := by
          refine parseIntDigits_reparse hint _ (fun c r' hc => ?_)
          rcases hfps with hfp | ⟨d, hfp, -, -⟩
          · subst hfp
            rcases heps with hep | ⟨e, sd, hep, he⟩
            · subst hep
              simp only [List.nil_append] at hc
              exact (ht c r' hc).1
            · subst hep
              simp only [List.nil_append, List.cons_append] at hc
              cases hc
              rcases he with he | he <;> (subst he; decide)
          · subst hfp
            simp only [List.cons_append] at hc
            cases hc
            decide
        have hfrac2 : parseFracPart (fp ++ (ep ++ t)) = some (fp, ep ++ t) := by
          refine parseFracPart_reparse hfrac _ (fun c r' hc => ?_)
          rcases heps with hep | ⟨e, sd, hep, he⟩
          · subst hep
            simp only [List.nil_append] at hc
            exact ⟨(ht c r' hc).1, (ht c r' hc).2.1⟩
          · subst hep
            simp only [List.cons_append] at hc
            cases hc
            rcases he with he | he <;> (subst he; exact ⟨by decide, by decide⟩)
        have hexp2 : parseExpPart (ep ++ t) = some (ep, t) := by
          refine parseExpPart_reparse hexp _ (fun c r' hc => ?_)
          exact ⟨(ht c r' hc).1, (ht c r' hc).2.2.1, (ht c r' hc).2.2.2⟩
        unfold parseNumBody
        have e1 : ip ++ fp ++ ep ++ t = ip ++ (fp ++ (ep ++ t)) := by
          simp [List.append_assoc]
        rw [e1]
        simp only [hint2, hfrac2, hexp2]

theorem parseNumBody_head {cs l r : List Char} (h : parseNumBody cs = some (l, r)) :
    ∃ c l', l = c :: l' ∧ isDigitC c = true := by
  unfold parseNumBody at h
  split at h
  · exact absurd h (by simp)
  next ip cs₂ hint =>
    split at h
    · exact absurd h (by simp)
    next fp cs₃ hfrac =>
      split at h
      · exact absurd h (by simp)
      next ep cs₄ hexp =>
        simp only [Option.some.injEq, Prod.mk.injEq] at h
        obtain ⟨hl, -⟩ := h
        subst hl
        rcases parseIntDigits_shape hint with hip | ⟨hne, hall, -⟩
        · subst hip
          exact ⟨'0', _, rfl, by decide⟩
        · obtain ⟨c, ip', hip⟩ : ∃ c ip', ip = c :: ip' := by
            cases ip with
            | nil => exact absurd rfl hne
            | cons a b => exact ⟨a, b, rfl⟩
          subst hip
          exact ⟨c, ip' ++ fp ++ ep, by simp, hall c (List.mem_cons_self _ _)⟩

theorem parseNumLexeme_spec {cs l r : List Char} (h : parseNumLexeme cs = some (l, r)) :
    cs = l ++ r ∧ ∀ t : List Char, numStopP t → parseNumLexeme (l ++ t) = some (l, t) := by
  cases cs with
  | nil => simp [parseNumLexeme] at h
  | cons c cs =>
    simp only [parseNumLexeme] at h
    split at h
    · next hc =>
        subst hc
        cases hb : parseNumBody cs with
        | none => rw [hb] at h; exact absurd h (by simp)
        | some p =>
            rw [hb] at h
            obtain ⟨lb, rb⟩ := p
            simp only [Option.map_some', Option.some.injEq, Prod.mk.injEq] at h
            obtain ⟨hl, hr⟩ := h
            subst hl
            subst hr
            obtain ⟨hsplit, hre⟩ := parseNumBody_spec hb
            refine ⟨by simp [hsplit], fun t ht => ?_⟩
            simp only [List.cons_append, parseNumLexeme, if_pos rfl]
            rw [hre t ht]
            rfl
    · next hc =>
        obtain ⟨hsplit, hre⟩ := parseNumBody_spec h
        obtain ⟨c₂, l', hl, hdig⟩ := parseNumBody_head h
        refine ⟨hsplit, fun t ht => ?_⟩
        subst hl
        have hnm : ¬ c₂ = '-' := by
          intro hq
          subst hq
          simp [isDigitC] at hdig
        simp only [List.cons_append, parseNumLexeme, if_neg hnm]
        rw [← List.cons_append]
        exact hre t ht

/-- A lexeme produced by the parser is itself a complete valid lexeme. -/
theorem parseNumLexeme_self {cs l r : List Char} (h : parseNumLexeme cs = some (l, r)) :
    parseNumLexeme l = some (l, []) := by
  have := (parseNumLexeme_spec h).2 [] (fun c r' hc => by cases hc)
  simpa using this

/-! ## Decimal rendering produces valid number lexemes -/

theorem natToCharsAux_digits :
    ∀ (fuel n : Nat), n < fuel → ∀ c ∈ natToCharsAux fuel n, isDigitC c = true := by
  intro fuel
  induction fuel with
  | zero => intro n h; omega
  | succ fuel ih =>
      intro n hn c hc
      unfold natToCharsAux at hc
      split at hc
      · next h10 =>
          simp only [List.mem_singleton] at hc
          subst hc
          interval_cases n <;> decide
      · next h10 =>
          rw [List.mem_append] at hc
          rcases hc with hc | hc
          · exact ih (n / 10) (by omega) c hc
          · simp only [List.mem_singleton] at hc
            subst hc
            have : n % 10 < 10 := Nat.mod_lt _ (by omega)
            interval_cases hq : (n % 10) <;> decide

theorem natToCharsAux_ne_nil (fuel n : Nat) (h : n < fuel) :
    natToCharsAux fuel n ≠ [] := by
  cases fuel with
  | zero => omega
  | succ fuel =>
      unfold natToCharsAux
      split
      · simp
      · simp

theorem natToCharsAux_head :
    ∀ (fuel n : Nat), n < fuel → 0 < n →
      ∃ c cs, natToCharsAux fuel n = c :: cs ∧ c ≠ '0' := by
  intro fuel
  induction fuel with
  | zero => intro n h; omega
  | succ fuel ih =>
      intro n hn hpos
      unfold natToCharsAux
      split
      · next h10 =>
          refine ⟨digitChar n, [], rfl, ?_⟩
          interval_cases n <;> decide
      · next h10 =>
          have hq : 0 < n / 10 := by omega
          obtain ⟨c, cs, hc, hne⟩ := ih (n / 10) (by omega) hq
          exact ⟨c, cs ++ [digitChar (n % 10)], by rw [hc]; rfl, hne⟩

/-- `String(n)` for a natural number is a complete valid JSON number
lexeme. -/
theorem natToChars_lexeme (n : Nat) :
    parseNumLexeme (natToChars n) = some (natToChars n, []) := by
  by_cases hz : n = 0
  · subst hz
    decide
  · unfold natToChars
    obtain ⟨c, cs, hc, hne⟩ := natToCharsAux_head (n + 1) n (by omega) (by omega)
    have hall := natToCharsAux_digits (n + 1) n (by omega)
    rw [hc]
    rw [hc] at hall
    have hcd : isDigitC c = true := hall c (List.mem_cons_self _ _)
    have hnm : ¬ c = '-' := by
      intro hq
      subst hq
      simp [isDigitC] at hcd
    simp only [parseNumLexeme, if_neg hnm]
    unfold parseNumBody
    have hint : parseIntDigits (c :: cs) = some (c :: cs, []) := by
      simp only [parseIntDigits, if_neg hne]
      have := digits1_all (d := c :: cs) (by simp) hall (t := [])
        (fun c' r' hc' => by cases hc')
      simpa using this
    simp only [hint]
    simp [parseFracPart, parseExpPart]

/-! ## String escaping round-trips through the parser -/

theorem hexVal_hexChar {n : Nat} (h : n < 16) : hexVal (hexChar n) = some n := by
  interval_cases n <;> decide

theorem parseStrBody_escape :
    ∀ (s : List Char) (fuel : Nat) (rest : List Char),
      ((s.map escapeChar).flatten.length + 1) ≤ fuel →
      parseStrBody fuel ((s.map escapeChar).flatten ++ quoteC :: rest) = some (s, rest) := by
  intro s
  induction s with
  | nil =>
      intro fuel rest hf
      obtain ⟨f, rfl⟩ : ∃ f, fuel = f + 1 := ⟨fuel - 1, by omega⟩
      simp only [List.map_nil, List.flatten_nil, List.nil_append, parseStrBody,
        if_pos rfl, if_true]
  | cons c s ih =>
      intro fuel rest hf
      simp only [List.map_cons, List.flatten_cons, List.length_append] at hf ⊢
      rw [List.append_assoc]
      obtain ⟨f, rfl⟩ : ∃ f, fuel = f + 2 := by
        refine ⟨fuel - 2, ?_⟩
        have h1 : 1 ≤ (escapeChar c).length := by
          unfold escapeChar
          repeat' split
          all_goals simp
        omega
      by_cases h1 : c = quoteC
      · subst h1
        have hec : escapeChar quoteC = [bslC, quoteC] := rfl
        rw [hec] at hf ⊢
        simp only [List.cons_append, List.nil_append]
        show parseStrBody (f + 1 + 1) _ = _
        simp only [parseStrBody, if_neg (by decide : ¬ (bslC = quoteC)), if_pos rfl,
          if_true, parseBslEsc, parseEscape, if_pos rfl]
        rw [ih f rest (by simp only [List.length_cons, List.length_nil] at hf; omega)]
        rfl
      · by_cases h2 : c = bslC
        · subst h2
          have hec : escapeChar bslC = [bslC, bslC] := rfl
          rw [hec] at hf ⊢
          simp only [List.cons_append, List.nil_append]
          show parseStrBody (f + 1 + 1) _ = _
          simp only [parseStrBody, if_neg (by decide : ¬ (bslC = quoteC)), if_pos rfl,
            if_true, parseBslEsc, parseEscape, if_neg (by decide : ¬ ((bslC : Char) = quoteC)), if_pos rfl]
          rw [ih f rest (by simp only [List.length_cons, List.length_nil] at hf; omega)]
          rfl
        · by_cases h3 : c.toNat = 8
          · have hec : escapeChar c = [bslC, 'b'] := by
              unfold escapeChar
              rw [if_neg h1, if_neg h2, if_pos h3]
            rw [hec] at hf ⊢
            simp only [List.cons_append, List.nil_append]
            show parseStrBody (f + 1 + 1) _ = _
            simp only [parseStrBody, if_neg (by decide : ¬ (bslC = quoteC)),
              if_pos rfl, if_true, parseBslEsc, parseEscape, if_neg (by decide : ¬ (('b' : Char) = quoteC)), if_neg (by decide : ¬ (('b' : Char) = bslC)), if_neg (by decide : ¬ (('b' : Char) = '/')), if_pos rfl]
            rw [ih f rest (by simp only [List.length_cons, List.length_nil] at hf; omega)]
            rw [show (8 : Nat) = c.toNat from h3.symm, Char.ofNat_toNat]
            rfl
          · by_cases h4 : c.toNat = 9
            · have hec : escapeChar c = [bslC, 't'] := by
                unfold escapeChar
                rw [if_neg h1, if_neg h2, if_neg h3, if_pos h4]
              rw [hec] at hf ⊢
              simp only [List.cons_append, List.nil_append]
              show parseStrBody (f + 1 + 1) _ = _
              simp only [parseStrBody, if_neg (by decide : ¬ (bslC = quoteC)),
                if_pos rfl, if_true, parseBslEsc, parseEscape, if_neg (by decide : ¬ (('t' : Char) = quoteC)), if_neg (by decide : ¬ (('t' : Char) = bslC)), if_neg (by decide : ¬ (('t' : Char) = '/')), if_neg (by decide : ¬ (('t' : Char) = 'b')), if_neg (by decide : ¬ (('t' : Char) = 'f')), if_neg (by decide : ¬ (('t' : Char) = 'n')), if_neg (by decide : ¬ (('t' : Char) = 'r')), if_pos rfl]
              rw [ih f rest (by simp only [List.length_cons, List.length_nil] at hf; omega)]
              rw [show (9 : Nat) = c.toNat from h4.symm, Char.ofNat_toNat]
              rfl
            · by_cases h5 : c.toNat = 10
              · have hec : escapeChar c = [bslC, 'n'] := by
                  unfold escapeChar
                  rw [if_neg h1, if_neg h2, if_neg h3, if_neg h4, if_pos h5]
                rw [hec] at hf ⊢
                simp only [List.cons_append, List.nil_append]
                show parseStrBody (f + 1 + 1) _ = _
                simp only [parseStrBody, if_neg (by decide : ¬ (bslC = quoteC)),
                  if_pos rfl, if_true, parseBslEsc, parseEscape, if_neg (by decide : ¬ (('n' : Char) = quoteC)), if_neg (by decide : ¬ (('n' : Char) = bslC)), if_neg (by decide : ¬ (('n' : Char) = '/')), if_neg (by decide : ¬ (('n' : Char) = 'b')), if_neg (by decide : ¬ (('n' : Char) = 'f')), if_pos rfl]
                rw [ih f rest (by simp only [List.length_cons, List.length_nil] at hf; omega)]
                rw [show (10 : Nat) = c.toNat from h5.symm, Char.ofNat_toNat]
                rfl
              · by_cases h6 : c.toNat = 12
                · have hec : escapeChar c = [bslC, 'f'] := by
                    unfold escapeChar
                    rw [if_neg h1, if_neg h2, if_neg h3, if_neg h4, if_neg h5, if_pos h6]
                  rw [hec] at hf ⊢
                  simp only [List.cons_append, List.nil_append]
                  show parseStrBody (f + 1 + 1) _ = _
                  simp only [parseStrBody, if_neg (by decide : ¬ (bslC = quoteC)),
                    if_pos rfl, if_true, parseBslEsc, parseEscape, if_neg (by decide : ¬ (('f' : Char) = quoteC)), if_neg (by decide : ¬ (('f' : Char) = bslC)), if_neg (by decide : ¬ (('f' : Char) = '/')), if_neg (by decide : ¬ (('f' : Char) = 'b')), if_pos rfl]
                  rw [ih f rest (by simp only [List.length_cons, List.length_nil] at hf; omega)]
                  rw [show (12 : Nat) = c.toNat from h6.symm, Char.ofNat_toNat]
                  rfl
                · by_cases h7 : c.toNat = 13
                  · have hec : escapeChar c = [bslC, 'r'] := by
                      unfold escapeChar
                      rw [if_neg h1, if_neg h2, if_neg h3, if_neg h4, if_neg h5, if_neg h6, if_pos h7]
                    rw [hec] at hf ⊢
                    simp only [List.cons_append, List.nil_append]
                    show parseStrBody (f + 1 + 1) _ = _
                    simp only [parseStrBody, if_neg (by decide : ¬ (bslC = quoteC)),
                      if_pos rfl, if_true, parseBslEsc, parseEscape, if_neg (by decide : ¬ (('r' : Char) = quoteC)), if_neg (by decide : ¬ (('r' : Char) = bslC)), if_neg (by decide : ¬ (('r' : Char) = '/')), if_neg (by decide : ¬ (('r' : Char) = 'b')), if_neg (by decide : ¬ (('r' : Char) = 'f')), if_neg (by decide : ¬ (('r' : Char) = 'n')), if_pos rfl]
                    rw [ih f rest (by simp only [List.length_cons, List.length_nil] at hf; omega)]
                    rw [show (13 : Nat) = c.toNat from h7.symm, Char.ofNat_toNat]
                    rfl
                  · by_cases h8 : c.toNat < 32
                    · have hec : escapeChar c =
                          [bslC, 'u', '0', '0', hexChar (c.toNat / 16), hexChar (c.toNat % 16)] := by
                        unfold escapeChar
                        rw [if_neg h1, if_neg h2, if_neg h3, if_neg h4, if_neg h5, if_neg h6, if_neg h7, if_pos h8]
                      rw [hec] at hf ⊢
                      simp only [List.cons_append, List.nil_append]
                      show parseStrBody (f + 1 + 1) _ = _
                      simp only [parseStrBody, if_neg (by decide : ¬ (bslC = quoteC)),
                        if_pos rfl, if_true, parseBslEsc, parseEscape, if_neg (by decide : ¬ (('u' : Char) = quoteC)), if_neg (by decide : ¬ (('u' : Char) = bslC)), if_neg (by decide : ¬ (('u' : Char) = '/')), if_neg (by decide : ¬ (('u' : Char) = 'b')), if_neg (by decide : ¬ (('u' : Char) = 'f')), if_neg (by decide : ¬ (('u' : Char) = 'n')), if_neg (by decide : ¬ (('u' : Char) = 'r')), if_neg (by decide : ¬ (('u' : Char) = 't')), if_pos rfl, parseUEscape]
                      have hhi : c.toNat / 16 < 16 := by omega
                      have hlo : c.toNat % 16 < 16 := by omega
                      rw [show hexVal '0' = some 0 from rfl, hexVal_hexChar hhi, hexVal_hexChar hlo]
                      dsimp only
                      rw [show 4096 * 0 + 256 * 0 + 16 * (c.toNat / 16) + c.toNat % 16 = c.toNat by omega]
                      rw [if_pos (by omega : c.toNat < 55296)]
                      dsimp only
                      rw [ih f rest (by simp only [List.length_cons, List.length_nil] at hf; omega)]
                      rw [Char.ofNat_toNat]
                      rfl
                    · have hec : escapeChar c = [c] := by
                        unfold escapeChar
                        rw [if_neg h1, if_neg h2, if_neg h3, if_neg h4, if_neg h5, if_neg h6, if_neg h7, if_neg h8]
                      rw [hec] at hf ⊢
                      simp only [List.cons_append, List.nil_append]
                      show parseStrBody (f + 1 + 1) _ = _
                      simp only [parseStrBody, if_neg h1, if_neg h2, if_neg h8]
                      rw [ih (f + 1) rest (by simp only [List.length_cons, List.length_nil] at hf; omega)]
                      rfl

/-! ## Well-formed values and serialization size bounds -/

mutual

/-- Values in the image of the parser: number lexemes are complete valid
lexemes and object keys are duplicate-free. -/
def WFJ : Json → Prop
  | .null => True
  | .bool _ => True
  | .numLit l => parseNumLexeme l = some (l, [])
  | .str _ => True
  | .arr xs => WFElems xs
  | .obj m => (m.map Prod.fst).Nodup ∧ WFMembers m

def WFElems : List Json → Prop
  | [] => True
  | x :: xs => WFJ x ∧ WFElems xs

def WFMembers : List (List Char × Json) → Prop
  | [] => True
  | (_, v) :: m => WFJ v ∧ WFMembers m

end

/-- Characters that may legally follow a complete serialized value. -/
def stopB : List Char → Bool
  | [] => true
  | c :: _ => c = commaC || c = rbraceC || c = rbrackC

theorem stopB_numStop {rest : List Char} (h : stopB rest = true) : numStopP rest := by
  intro c r' hr
  subst hr
  simp only [stopB, Bool.or_eq_true, decide_eq_true_eq] at h
  rcases h with (h | h) | h <;>
    (subst h; exact ⟨by decide, by decide, by decide, by decide⟩)

theorem skipWs_cons {c : Char} (h : isWsC c = false) (r : List Char) :
    skipWs (c :: r) = c :: r := by
  simp [skipWs, List.dropWhile_cons, h]

theorem parseNumLexeme_head {cs l r : List Char} (h : parseNumLexeme cs = some (l, r)) :
    ∃ c l', l = c :: l' ∧ (c = '-' ∨ isDigitC c = true) := by
  cases cs with
  | nil => simp [parseNumLexeme] at h
  | cons c cs =>
    simp only [parseNumLexeme] at h
    split at h
    · next hc =>
        subst hc
        cases hb : parseNumBody cs with
        | none => rw [hb] at h; exact absurd h (by simp)
        | some p =>
            rw [hb] at h
            obtain ⟨lb, rb⟩ := p
            simp only [Option.map_some', Option.some.injEq, Prod.mk.injEq] at h
            obtain ⟨hl, -⟩ := h
            exact ⟨'-', lb, hl.symm, Or.inl rfl⟩
    · obtain ⟨c₂, l', hl, hd⟩ := parseNumBody_head h
      exact ⟨c₂, l', hl, Or.inr hd⟩

/-- A digit is not whitespace and not a JSON delimiter or keyword head. -/
theorem digit_not_special {c : Char} (h : isDigitC c = true) :
    isWsC c = false ∧ c ≠ quoteC ∧ c ≠ lbraceC ∧ c ≠ lbrackC ∧ c ≠ rbrackC ∧
      c ≠ rbraceC ∧ c ≠ commaC ∧ c ≠ 'n' ∧ c ≠ 't' ∧ c ≠ 'f' := by
  refine ⟨?_, ?_, ?_, ?_, ?_, ?_, ?_, ?_, ?_, ?_⟩
  · cases hw : isWsC c
    · rfl
    · exfalso
      simp only [isWsC, Bool.or_eq_true, decide_eq_true_eq] at hw
      rcases hw with ((hw | hw) | hw) | hw <;> (subst hw; exact absurd h (by decide))
  all_goals (intro hq; subst hq; exact absurd h (by decide))

/-- Head shape of a serialized value: nonempty, not whitespace, and not a
closing delimiter, comma, or colon. -/
theorem serVal_head (v : Json) (hWF : WFJ v) :
    ∃ c r, serVal v = c :: r ∧ isWsC c = false ∧ c ≠ rbrackC ∧ c ≠ rbraceC ∧
      c ≠ commaC ∧ c ≠ colonC := by
  cases v with
  | null => exact ⟨'n', _, rfl, by decide, by decide, by decide, by decide, by decide⟩
  | bool b =>
      cases b
      · exact ⟨'f', _, rfl, by decide, by decide, by decide, by decide, by decide⟩
      · exact ⟨'t', _, rfl, by decide, by decide, by decide, by decide, by decide⟩
  | numLit l =>
      obtain ⟨c, l', hl, hd⟩ := parseNumLexeme_head (hWF : parseNumLexeme l = some (l, []))
      refine ⟨c, l', by rw [show serVal (.numLit l) = l from rfl, hl], ?_⟩
      rcases hd with hd | hd
      · subst hd
        exact ⟨by decide, by decide, by decide, by decide, by decide⟩
      · obtain ⟨h1, -, -, -, h5, h6, h7, -⟩ := digit_not_special hd
        refine ⟨h1, h5, h6, h7, ?_⟩
        intro hq
        subst hq
        exact absurd hd (by decide)
  | str s =>
      exact ⟨quoteC, _, rfl, by decide, by decide, by decide, by decide, by decide⟩
  | arr xs =>
      exact ⟨lbrackC, serElems xs ++ [rbrackC], rfl, by decide, by decide, by decide,
        by decide, by decide⟩
  | obj m =>
      exact ⟨lbraceC, serMembers m ++ [rbraceC], rfl, by decide, by decide, by decide,
        by decide, by decide⟩

/-- Head shape of serialized members: always an opening quote. -/
theorem serMembers_head (k : List Char) (v : Json) (m : List (List Char × Json)) :
    ∃ r, serMembers ((k, v) :: m) = quoteC :: r := by
  cases m with
  | nil => exact ⟨_, rfl⟩
  | cons q m => exact ⟨_, rfl⟩

theorem setKey_fresh {k : List Char} (v : Json) :
    ∀ {acc : List (List Char × Json)}, lookupKey k acc = none →
      setKey k v acc = acc ++ [(k, v)]
  | [], _ => rfl
  | (k', v') :: acc, h => by
      simp only [lookupKey] at h
      split at h
      · exact absurd h (by simp)
      · next hk =>
          simp only [setKey, List.cons_append]
          rw [if_neg hk]
          rw [setKey_fresh v h]

theorem lookupKey_append_none {k : List Char} :
    ∀ {acc l2 : List (List Char × Json)}, lookupKey k acc = none →
      lookupKey k (acc ++ l2) = lookupKey k l2
  | [], _, _ => rfl
  | (k', v') :: acc, l2, h => by
      simp only [lookupKey, List.cons_append] at h ⊢
      split at h
      · exact absurd h (by simp)
      · next hk =>
          rw [if_neg hk]
          exact lookupKey_append_none h

theorem sizeJ_pos (v : Json) : 1 ≤ sizeJ v := by
  cases v <;> (first | omega | (simp only [sizeJ]; omega) | (simp [sizeJ]))

theorem sizeElemsJ_pos {x : Json} (xs : List Json) : 1 ≤ sizeElemsJ (x :: xs) := by
  simp only [sizeElemsJ]
  omega

theorem sizeMembersJ_pos {p : List Char × Json} (m : List (List Char × Json)) :
    1 ≤ sizeMembersJ (p :: m) := by
  simp only [sizeMembersJ]
  omega

mutual

theorem sizeJ_le_len : ∀ v : Json, WFJ v → sizeJ v ≤ (serVal v).length
  | .null, _ => by simp [serVal, sizeJ]
  | .bool b, _ => by cases b <;> simp [serVal, sizeJ]
  | .numLit l, h => by
      have h' : parseNumLexeme l = some (l, []) := by simpa [WFJ] using h
      have : l ≠ [] := by
        intro hq
        subst hq
        exact absurd h' (by decide)
      have : 1 ≤ l.length := by
        cases l with
        | nil => exact absurd rfl this
        | cons a b => simp
      simpa [serVal, sizeJ] using this
  | .str s, _ => by simp [serVal, serStringLit, sizeJ]
  | .arr xs, h => by
      have := sizeElemsJ_le_len xs h
      simp only [serVal, sizeJ, List.length_cons, List.length_append, List.length_singleton]
      omega
  | .obj m, h => by
      have := sizeMembersJ_le_len m h.2
      simp only [serVal, sizeJ, List.length_cons, List.length_append, List.length_singleton]
      omega

theorem sizeElemsJ_le_len : ∀ xs : List Json, WFElems xs →
    sizeElemsJ xs ≤ (serElems xs).length + 1
  | [], _ => by simp [serElems, sizeElemsJ]
  | [x], h => by
      have := sizeJ_le_len x h.1
      simp only [serElems, sizeElemsJ]
      omega
  | x :: y :: xs, h => by
      have h1 := sizeJ_le_len x h.1
      have h2 := sizeElemsJ_le_len (y :: xs) h.2
      simp only [serElems, sizeElemsJ, List.length_append, List.length_cons] at h2 ⊢
      omega

theorem sizeMembersJ_le_len : ∀ m : List (List Char × Json), WFMembers m →
    sizeMembersJ m ≤ (serMembers m).length + 1
  | [], _ => by simp [serMembers, sizeMembersJ]
  | [(k, v)], h => by
      have := sizeJ_le_len v h.1
      simp only [serMembers, sizeMembersJ, List.length_append, List.length_cons]
      omega
  | (k, v) :: q :: m, h => by
      have h1 := sizeJ_le_len v h.1
      have h2 := sizeMembersJ_le_len (q :: m) h.2
      simp only [serMembers, sizeMembersJ, List.length_append, List.length_cons] at h2 ⊢
      omega

end

theorem sizeMembersJ_cons (k : List Char) (v : Json) (m : List (List Char × Json)) :
    sizeMembersJ ((k, v) :: m) = 1 + sizeJ v + sizeMembersJ m := rfl

/-- Round-trip: parsing a serialized well-formed value consumes exactly its
serialization, for any fuel at least its size and any legal continuation. -/
theorem parseRound : ∀ fuel : Nat,
    (∀ v rest, WFJ v → sizeJ v ≤ fuel → stopB rest = true →
       parseVal fuel (serVal v ++ rest) = some (v, rest)) ∧
    (∀ xs acc rest, WFElems xs → xs ≠ [] → sizeElemsJ xs ≤ fuel →
       parseElems fuel acc (serElems xs ++ rbrackC :: rest) = some (.arr (acc ++ xs), rest)) ∧
    (∀ m acc rest, WFMembers m → m ≠ [] → (m.map Prod.fst).Nodup →
       (∀ k ∈ m.map Prod.fst, lookupKey k acc = none) → sizeMembersJ m ≤ fuel →
       parseMembers fuel acc (serMembers m ++ rbraceC :: rest) = some (.obj (acc ++ m), rest)) := by
  intro fuel
  induction fuel with
  | zero =>
      refine ⟨?_, ?_, ?_⟩
      · intro v rest hWF hsz hstop
        exact absurd hsz (by have := sizeJ_pos v; omega)
      · intro xs acc rest hWF hne hsz
        cases xs with
        | nil => exact absurd rfl hne
        | cons x xs => exact absurd hsz (by have := sizeElemsJ_pos (x := x) xs; omega)
      · intro m acc rest hWF hne hnd hfresh hsz
        cases m with
        | nil => exact absurd rfl hne
        | cons p m => exact absurd hsz (by have := sizeMembersJ_pos (p := p) m; omega)
  | succ fuel IH =>
      obtain ⟨IHv, IHe, IHm⟩ := IH
      refine ⟨?_, ?_, ?_⟩
      · intro v rest hWF hsz hstop
        cases v with
        | null =>
            show parseVal (fuel + 1) ('n' :: 'u' :: 'l' :: 'l' :: rest) = _
            simp only [parseVal]
            rw [skipWs_cons (by decide)]
            dsimp only
            rw [if_neg (by decide : ¬ (('n' : Char) = quoteC)),
              if_neg (by decide : ¬ (('n' : Char) = lbraceC)),
              if_neg (by decide : ¬ (('n' : Char) = lbrackC)),
              if_pos rfl]
            rfl
        | bool b =>
            cases b
            · show parseVal (fuel + 1) ('f' :: 'a' :: 'l' :: 's' :: 'e' :: rest) = _
              simp only [parseVal]
              rw [skipWs_cons (by decide)]
              dsimp only
              rw [if_neg (by decide : ¬ (('f' : Char) = quoteC)),
                if_neg (by decide : ¬ (('f' : Char) = lbraceC)),
                if_neg (by decide : ¬ (('f' : Char) = lbrackC)),
                if_neg (by decide : ¬ (('f' : Char) = 'n')),
                if_neg (by decide : ¬ (('f' : Char) = 't')),
                if_pos rfl]
              rfl
            · show parseVal (fuel + 1) ('t' :: 'r' :: 'u' :: 'e' :: rest) = _
              simp only [parseVal]
              rw [skipWs_cons (by decide)]
              dsimp only
              rw [if_neg (by decide : ¬ (('t' : Char) = quoteC)),
                if_neg (by decide : ¬ (('t' : Char) = lbraceC)),
                if_neg (by decide : ¬ (('t' : Char) = lbrackC)),
                if_neg (by decide : ¬ (('t' : Char) = 'n')),
                if_pos rfl]
              rfl
        | numLit l =>
            have hWF' : parseNumLexeme l = some (l, []) := hWF
            obtain ⟨c, l', hl, hd⟩ := parseNumLexeme_head hWF'
            subst hl
            have hfacts : isWsC c = false ∧ c ≠ quoteC ∧ c ≠ lbraceC ∧ c ≠ lbrackC ∧
                c ≠ 'n' ∧ c ≠ 't' ∧ c ≠ 'f' := by
              rcases hd with hd | hd
              · subst hd
                exact ⟨by decide, by decide, by decide, by decide, by decide, by decide,
                  by decide⟩
              · obtain ⟨h1, h2, h3, h4, -, -, -, h8, h9, h10⟩ := digit_not_special hd
                exact ⟨h1, h2, h3, h4, h8, h9, h10⟩
            obtain ⟨hws, hq, hbc, hbk, hn, ht, hf⟩ := hfacts
            show parseVal (fuel + 1) ((c :: l') ++ rest) = _
            rw [List.cons_append]
            simp only [parseVal]
            rw [skipWs_cons hws]
            dsimp only
            rw [if_neg hq, if_neg hbc, if_neg hbk, if_neg hn, if_neg ht, if_neg hf,
              if_pos hd]
            rw [← List.cons_append, (parseNumLexeme_spec hWF').2 rest (stopB_numStop hstop)]
            rfl
        | str s =>
            have he : serVal (.str s) ++ rest =
                quoteC :: ((s.map escapeChar).flatten ++ quoteC :: rest) := by
              show serStringLit s ++ rest = _
              simp [serStringLit, List.append_assoc]
            rw [he]
            simp only [parseVal]
            rw [skipWs_cons (by decide)]
            dsimp only
            rw [if_pos rfl]
            rw [parseStrBody_escape s _ rest
              (by simp only [List.length_append, List.length_cons]; omega)]
            rfl
        | arr xs =>
            cases xs with
            | nil =>
                show parseVal (fuel + 1) (lbrackC :: rbrackC :: rest) = _
                simp only [parseVal]
                rw [skipWs_cons (by decide)]
                dsimp only
                rw [if_neg (by decide : ¬ (lbrackC = quoteC)),
                  if_neg (by decide : ¬ (lbrackC = lbraceC)),
                  if_pos rfl]
                rw [skipWs_cons (by decide)]
                dsimp only
                rw [if_pos rfl]
            | cons x xs' =>
                obtain ⟨c₀, r₀, hc₀, hws₀, hnbrk, -, -, -⟩ := serVal_head x hWF.1
                obtain ⟨tl, htl⟩ : ∃ tl, serElems (x :: xs') = c₀ :: tl := by
                  cases xs' with
                  | nil => exact ⟨r₀, by simp [serElems, hc₀]⟩
                  | cons y ys => exact ⟨r₀ ++ commaC :: serElems (y :: ys),
                      by simp [serElems, hc₀]⟩
                rw [show serVal (.arr (x :: xs')) ++ rest =
                    lbrackC :: (serElems (x :: xs') ++ rbrackC :: rest) by
                  simp [serVal]]
                simp only [parseVal]
                rw [skipWs_cons (by decide)]
                dsimp only
                rw [if_neg (by decide : ¬ (lbrackC = quoteC)),
                  if_neg (by decide : ¬ (lbrackC = lbraceC)),
                  if_pos rfl]
                rw [htl, List.cons_append, skipWs_cons hws₀]
                dsimp only
                rw [if_neg hnbrk, ← List.cons_append, ← htl]
                rw [IHe (x :: xs') [] rest hWF (by simp)
                  (by simp only [sizeJ] at hsz; omega)]
                simp
        | obj m =>
            cases m with
            | nil =>
                show parseVal (fuel + 1) (lbraceC :: rbraceC :: rest) = _
                simp only [parseVal]
                rw [skipWs_cons (by decide)]
                dsimp only
                rw [if_neg (by decide : ¬ (lbraceC = quoteC)), if_pos rfl]
                rw [skipWs_cons (by decide)]
                dsimp only
                rw [if_pos rfl]
            | cons p m' =>
                obtain ⟨k, v⟩ := p
                obtain ⟨rm, hrm⟩ := serMembers_head k v m'
                rw [show serVal (.obj ((k, v) :: m')) ++ rest =
                    lbraceC :: (serMembers ((k, v) :: m') ++ rbraceC :: rest) by
                  simp [serVal]]
                simp only [parseVal]
                rw [skipWs_cons (by decide)]
                dsimp only
                rw [if_neg (by decide : ¬ (lbraceC = quoteC)), if_pos rfl]
                rw [hrm, List.cons_append, skipWs_cons (by decide)]
                dsimp only
                rw [if_neg (by decide : ¬ (quoteC = rbraceC)), ← List.cons_append, ← hrm]
                rw [IHm ((k, v) :: m') [] rest hWF.2 (by simp) hWF.1
                  (by intro k' hk'; rfl)
                  (by simp only [sizeJ] at hsz; omega)]
                simp
      · intro xs acc rest hWF hne hsz
        cases xs with
        | nil => exact absurd rfl hne
        | cons x xs' =>
          cases xs' with
          | nil =>
              show parseElems (fuel + 1) acc (serVal x ++ rbrackC :: rest) = _
              simp only [parseElems]
              rw [IHv x (rbrackC :: rest) hWF.1
                (by simp only [sizeElemsJ] at hsz; omega) rfl]
              dsimp only
              rw [skipWs_cons (by decide)]
              dsimp only
              rw [if_neg (by decide : ¬ (rbrackC = commaC)), if_pos rfl]
          | cons y ys =>
              show parseElems (fuel + 1) acc
                  ((serVal x ++ commaC :: serElems (y :: ys)) ++ rbrackC :: rest) = _
              rw [show (serVal x ++ commaC :: serElems (y :: ys)) ++ rbrackC :: rest =
                  serVal x ++ (commaC :: (serElems (y :: ys) ++ rbrackC :: rest)) by
                simp [List.append_assoc]]
              simp only [parseElems]
              rw [IHv x (commaC :: (serElems (y :: ys) ++ rbrackC :: rest)) hWF.1
                (by simp only [sizeElemsJ] at hsz; omega) rfl]
              dsimp only
              rw [skipWs_cons (by decide)]
              dsimp only
              rw [if_pos rfl]
              rw [IHe (y :: ys) (acc ++ [x]) rest hWF.2 (by simp)
                (by
                  have := sizeJ_pos x
                  simp only [sizeElemsJ] at hsz ⊢
                  omega)]
              simp
      · intro m acc rest hWF hne hnd hfresh hsz
        cases m with
        | nil => exact absurd rfl hne
        | cons p m' =>
          obtain ⟨k, v⟩ := p
          have hk0 : lookupKey k acc = none := hfresh k (List.mem_cons_self _ _)
          cases m' with
          | nil =>
              have he : serMembers [(k, v)] ++ rbraceC :: rest =
                  quoteC :: ((k.map escapeChar).flatten ++
                    quoteC :: (colonC :: (serVal v ++ rbraceC :: rest))) := by
                simp [serMembers, serStringLit]
              show parseMembers (fuel + 1) acc (serMembers [(k, v)] ++ rbraceC :: rest) = _
              rw [he]
              simp only [parseMembers]
              rw [skipWs_cons (by decide)]
              dsimp only
              rw [if_pos rfl]
              rw [parseStrBody_escape k _ _
                (by simp only [List.length_append, List.length_cons]; omega)]
              dsimp only
              rw [skipWs_cons (by decide)]
              dsimp only
              rw [if_pos rfl]
              rw [sizeMembersJ_cons] at hsz
              rw [IHv v (rbraceC :: rest) hWF.1 (by omega) rfl]
              dsimp only
              rw [skipWs_cons (by decide)]
              dsimp only
              rw [if_neg (by decide : ¬ (rbraceC = commaC)), if_pos rfl,
                setKey_fresh v hk0]
          | cons q m'' =>
              obtain ⟨k₂, v₂⟩ := q
              obtain ⟨hknotin, hndtail⟩ := List.nodup_cons.mp hnd
              have he : serMembers ((k, v) :: (k₂, v₂) :: m'') ++ rbraceC :: rest =
                  quoteC :: ((k.map escapeChar).flatten ++
                    quoteC :: (colonC :: (serVal v ++
                      commaC :: (serMembers ((k₂, v₂) :: m'') ++ rbraceC :: rest)))) := by
                simp [serMembers, serStringLit]
              rw [he]
              simp only [parseMembers]
              rw [skipWs_cons (by decide)]
              dsimp only
              rw [if_pos rfl]
              rw [parseStrBody_escape k _ _
                (by simp only [List.length_append, List.length_cons]; omega)]
              dsimp only
              rw [skipWs_cons (by decide)]
              dsimp only
              rw [if_pos rfl]
              rw [sizeMembersJ_cons] at hsz
              rw [IHv v (commaC :: (serMembers ((k₂, v₂) :: m'') ++ rbraceC :: rest)) hWF.1
                (by have := sizeMembersJ_pos (p := (k₂, v₂)) m''; omega) rfl]
              dsimp only
              rw [skipWs_cons (by decide)]
              dsimp only
              rw [if_pos rfl, setKey_fresh v hk0]
              rw [IHm ((k₂, v₂) :: m'') (acc ++ [(k, v)]) rest hWF.2 (by simp) hndtail
                (by
                  intro k' hk'
                  rw [lookupKey_append_none (hfresh k' (List.mem_cons_of_mem _ hk'))]
                  simp only [lookupKey]
                  rw [if_neg (fun h => hknotin (by rw [h]; exact hk'))])
                (by have := sizeJ_pos v; omega)]
              simp

/-- A serialized well-formed value parses back to itself (`JSON.parse` of
`JSON.stringify` is the identity on well-formed values). -/
theorem jsonParse_stringify {v : Json} (hWF : WFJ v) :
    jsonParseChars (stringify v) = some v := by
  have h := (parseRound ((serVal v).length + 1)).1 v [] hWF
    (by have := sizeJ_le_len v hWF; omega) rfl
  rw [List.append_nil] at h
  show jsonParseChars (serVal v) = some v
  simp only [jsonParseChars]
  rw [h]
  rfl

theorem WFElems_append_one : ∀ {acc : List Json} {v : Json},
    WFElems acc → WFJ v → WFElems (acc ++ [v])
  | [], _, _, hv => ⟨hv, trivial⟩
  | _ :: acc, _, hacc, hv => ⟨hacc.1, WFElems_append_one hacc.2 hv⟩

theorem mem_map_fst_setKey {a k : List Char} (v : Json) :
    ∀ m : List (List Char × Json),
      a ∈ (setKey k v m).map Prod.fst ↔ (a = k ∨ a ∈ m.map Prod.fst)
  | [] => by simp [setKey]
  | (k', v') :: m => by
      simp only [setKey]
      split
      · next heq =>
          subst heq
          simp only [List.map_cons, List.mem_cons]
          tauto
      · simp only [List.map_cons, List.mem_cons, mem_map_fst_setKey v m]
        tauto

theorem setKey_nodup {k : List Char} (v : Json) :
    ∀ {m : List (List Char × Json)}, (m.map Prod.fst).Nodup →
      ((setKey k v m).map Prod.fst).Nodup
  | [], _ => by simp [setKey]
  | (k', v') :: m, h => by
      simp only [List.map_cons, List.nodup_cons] at h
      obtain ⟨hnotin, hnd⟩ := h
      simp only [setKey]
      split
      · next heq =>
          subst heq
          simp only [List.map_cons, List.nodup_cons]
          exact ⟨hnotin, hnd⟩
      · next hne =>
          simp only [List.map_cons, List.nodup_cons]
          refine ⟨?_, setKey_nodup v hnd⟩
          intro hmem
          rcases (mem_map_fst_setKey v m).mp hmem with h | h
          · exact hne h
          · exact hnotin h

theorem setKey_WFMembers {k : List Char} {v : Json} (hv : WFJ v) :
    ∀ {m : List (List Char × Json)}, WFMembers m → WFMembers (setKey k v m)
  | [], _ => ⟨hv, trivial⟩
  | (k', v') :: m, h => by
      simp only [setKey]
      split
      · exact ⟨hv, h.2⟩
      · exact ⟨h.1, setKey_WFMembers hv h.2⟩

theorem lookupKey_setKey_self (k : List Char) (v : Json) :
    ∀ m : List (List Char × Json), lookupKey k (setKey k v m) = some v
  | [] => by simp [setKey, lookupKey]
  | (k', v') :: m => by
      simp only [setKey]
      split
      · next heq =>
          subst heq
          simp [lookupKey]
      · next hne =>
          simp only [lookupKey]
          rw [if_neg hne]
          exact lookupKey_setKey_self k v m

/-- Everything `JSON.parse` produces is well-formed: object keys are
duplicate-free (last wins) and number lexemes reparse to themselves. -/
theorem parseWF : ∀ fuel : Nat,
    (∀ cs v r, parseVal fuel cs = some (v, r) → WFJ v) ∧
    (∀ acc cs v r, WFElems acc → parseElems fuel acc cs = some (v, r) → WFJ v) ∧
    (∀ acc cs v r, (acc.map Prod.fst).Nodup → WFMembers acc →
       parseMembers fuel acc cs = some (v, r) → WFJ v) := by
  intro fuel
  induction fuel with
  | zero =>
      refine ⟨?_, ?_, ?_⟩
      · intro cs v r h
        exact absurd h (by simp [parseVal])
      · intro acc cs v r _ h
        exact absurd h (by simp [parseElems])
      · intro acc cs v r _ _ h
        exact absurd h (by simp [parseMembers])
  | succ fuel IH =>
      obtain ⟨IHv, IHe, IHm⟩ := IH
      refine ⟨?_, ?_, ?_⟩
      · intro cs v r h
        simp only [parseVal] at h
        split at h
        · exact absurd h (by simp)
        · split at h
          · -- string literal
            simp only [Option.map_eq_some'] at h
            obtain ⟨⟨s, r₂⟩, -, hf⟩ := h
            simp only [Prod.mk.injEq] at hf
            obtain ⟨hv, -⟩ := hf
            subst hv
            trivial
          · split at h
            · -- object
              split at h
              · split at h
                · simp only [Option.some.injEq, Prod.mk.injEq] at h
                  obtain ⟨hv, -⟩ := h
                  subst hv
                  exact ⟨List.nodup_nil, trivial⟩
                · exact IHm [] _ v r (by simp) trivial h
              · exact absurd h (by simp)
            · split at h
              · -- array
                split at h
                · split at h
                  · simp only [Option.some.injEq, Prod.mk.injEq] at h
                    obtain ⟨hv, -⟩ := h
                    subst hv
                    trivial
                  · exact IHe [] _ v r trivial h
                · exact absurd h (by simp)
              · split at h
                · -- null
                  split at h
                  · simp only [Option.some.injEq, Prod.mk.injEq] at h
                    obtain ⟨hv, -⟩ := h
                    subst hv
                    trivial
                  · exact absurd h (by simp)
                · split at h
                  · -- true
                    split at h
                    · simp only [Option.some.injEq, Prod.mk.injEq] at h
                      obtain ⟨hv, -⟩ := h
                      subst hv
                      trivial
                    · exact absurd h (by simp)
                  · split at h
                    · -- false
                      split at h
                      · simp only [Option.some.injEq, Prod.mk.injEq] at h
                        obtain ⟨hv, -⟩ := h
                        subst hv
                        trivial
                      · exact absurd h (by simp)
                    · split at h
                      · -- number
                        simp only [Option.map_eq_some'] at h
                        obtain ⟨⟨l, r₂⟩, hp, hf⟩ := h
                        simp only [Prod.mk.injEq] at hf
                        obtain ⟨hv, -⟩ := hf
                        subst hv
                        exact parseNumLexeme_self hp
                      · exact absurd h (by simp)
      · intro acc cs v r hacc h
        simp only [parseElems] at h
        split at h
        · simp at h
        · next v₀ rest₀ heqv =>
            split at h
            · simp at h
            · split at h
              · exact IHe _ _ v r (WFElems_append_one hacc (IHv _ _ _ heqv)) h
              · split at h
                · simp only [Option.some.injEq, Prod.mk.injEq] at h
                  obtain ⟨hv, -⟩ := h
                  subst hv
                  exact WFElems_append_one hacc (IHv _ _ _ heqv)
                · simp at h
      · intro acc cs v r hnd hWFacc h
        simp only [parseMembers] at h
        split at h
        · simp at h
        · split at h
          · split at h
            · simp at h
            · split at h
              · simp at h
              · split at h
                · split at h
                  · simp at h
                  · next v₀ rest₀ heqv =>
                      split at h
                      · simp at h
                      · split at h
                        · exact IHm _ _ v r (setKey_nodup v₀ hnd)
                            (setKey_WFMembers (IHv _ _ _ heqv) hWFacc) h
                        · split at h
                          · simp only [Option.some.injEq, Prod.mk.injEq] at h
                            obtain ⟨hv, -⟩ := h
                            subst hv
                            exact ⟨setKey_nodup v₀ hnd,
                              setKey_WFMembers (IHv _ _ _ heqv) hWFacc⟩
                          · simp at h
                · simp at h
          · simp at h

theorem jsonParseChars_WF {s : List Char} {j : Json}
    (h : jsonParseChars s = some j) : WFJ j := by
  simp only [jsonParseChars] at h
  split at h
  · next v₀ rest₀ heq =>
      split at h
      · simp only [Option.some.injEq] at h
        subst h
        exact (parseWF (s.length + 1)).1 _ _ _ heq
      · simp at h
  · simp at h

theorem nodup_hst : ([['h'], ['s'], ['t']] : List (List Char)).Nodup := by decide

/-- Every successful `mutateCd` on a well-formed decoded record yields an
object carrying `h`, `s` and `t` members, itself well-formed. -/
theorem mutateCd_compact : ∀ {j : Json} {st : CredentialStatus} {now : Nat}
    {cd : Json}, WFJ j → mutateCd j st now = .ok cd →
    ∃ m, cd = .obj m ∧ WFJ (.obj m) ∧
      (lookupKey ('h' :: []) m).isSome = true ∧
      (lookupKey ('s' :: []) m).isSome = true ∧
      (lookupKey ('t' :: []) m).isSome = true := by
  intro j st now cd hWFj h
  cases j with
  | null => simp [mutateCd, getMemberJS] at h
  | bool b =>
      simp [mutateCd, getMemberJS, truthyOpt, jsSubstring16] at h
      subst h
      exact ⟨_, rfl, ⟨nodup_hst, trivial, trivial, natToChars_lexeme now, trivial⟩,
        rfl, rfl, rfl⟩
  | numLit l =>
      simp [mutateCd, getMemberJS, truthyOpt, jsSubstring16] at h
      subst h
      exact ⟨_, rfl, ⟨nodup_hst, trivial, trivial, natToChars_lexeme now, trivial⟩,
        rfl, rfl, rfl⟩
  | str s =>
      simp [mutateCd, getMemberJS, truthyOpt, jsSubstring16] at h
      subst h
      exact ⟨_, rfl, ⟨nodup_hst, trivial, trivial, natToChars_lexeme now, trivial⟩,
        rfl, rfl, rfl⟩
  | arr xs =>
      simp [mutateCd, getMemberJS, truthyOpt, jsSubstring16] at h
      subst h
      exact ⟨_, rfl, ⟨nodup_hst, trivial, trivial, natToChars_lexeme now, trivial⟩,
        rfl, rfl, rfl⟩
  | obj m =>
      simp only [mutateCd, getMemberJS] at h
      by_cases htr : truthyOpt (lookupKey ('h' :: []) m) = true
      · rw [if_pos htr] at h
        simp only [Except.ok.injEq] at h
        subst h
        obtain ⟨hnd, hWFm⟩ := hWFj
        refine ⟨_, rfl, ⟨?_, ?_⟩, ?_, ?_, ?_⟩
        · exact setKey_nodup _ (setKey_nodup _ hnd)
        · exact setKey_WFMembers
            (show WFJ (.numLit (natToChars now)) from natToChars_lexeme now)
            (setKey_WFMembers (show WFJ (.str (statusStr st)) from trivial) hWFm)
        · rw [lookupKey_setKey_ne _ (by decide), lookupKey_setKey_ne _ (by decide)]
          cases hl : lookupKey ('h' :: []) m with
          | none => rw [hl] at htr; exact absurd htr (by simp [truthyOpt])
          | some _ => rfl
        · rw [lookupKey_setKey_ne _ (by decide), lookupKey_setKey_self]
          rfl
        · rw [lookupKey_setKey_self]
          rfl
      · rw [if_neg htr] at h
        split at h
        · simp at h
        · next h16 hsub =>
            simp only [Except.ok.injEq] at h
            subst h
            exact ⟨_, rfl, ⟨nodup_hst, trivial, trivial, natToChars_lexeme now, trivial⟩,
              rfl, rfl, rfl⟩

/-- Every successful re-encode (`updateCredObj`) yields a well-formed compact
object with `h`, `s` and `t`, whatever was stored before. -/
theorem updateCredObj_compact {stored : List Char} {st : CredentialStatus}
    {now : Nat} {cd : Json} (h : updateCredObj stored st now = .ok cd) :
    ∃ m, cd = .obj m ∧ WFJ (.obj m) ∧
      (lookupKey ('h' :: []) m).isSome = true ∧
      (lookupKey ('s' :: []) m).isSome = true ∧
      (lookupKey ('t' :: []) m).isSome = true := by
  simp only [updateCredObj] at h
  split at h
  · refine mutateCd_compact ?_ h
    exact ⟨nodup_hst, trivial, trivial, natToChars_lexeme now, trivial⟩
  · next j hp => exact mutateCd_compact (jsonParseChars_WF hp) h

/-- C10: after every successful `updateCredentialStatus`, the value submitted
for the record's data key parses as a compact JSON object with members `h`,
`s` and `t`; in particular a legacy plain-hash record is migrated to the
compact encoding by its first successful update, and a subsequent
`getCredentialInfo` of the new value takes the structured (parse-success)
path, never the legacy (parse-failure) path. -/
theorem update_stores_compact_hst (dataAttr : List (List Char × List Char))
    (contractId : List Char) (st : CredentialStatus) (now : Nat)
    (newVal : List Char)
    (h : updateCredentialStatus dataAttr contractId st now = .ok newVal) :
    ∃ m, jsonParseChars newVal = some (.obj m) ∧
      (lookupKey ('h' :: []) m).isSome = true ∧
      (lookupKey ('s' :: []) m).isSome = true ∧
      (lookupKey ('t' :: []) m).isSome = true := by
  simp only [updateCredentialStatus] at h
  split at h
  · simp at h
  · split at h
    · simp at h
    · split at h
      · simp at h
      · next cd hcd =>
          simp only [Except.ok.injEq] at h
          subst h
          obtain ⟨m, rfl, hWF, hh, hs, ht⟩ := updateCredObj_compact hcd
          exact ⟨m, jsonParse_stringify hWF, hh, hs, ht⟩

/-- Witness for C10: updating a legacy plain-hash record ("abcd") stores the
compact object with `h`, `s`, `t`. -/
theorem update_stores_compact_hst_witness :
    ∃ m, jsonParseChars
        "\x7b\"h\":\"abcd\",\"s\":\"Revoked\",\"t\":5\x7d".data = some (.obj m) ∧
      (lookupKey ('h' :: []) m).isSome = true ∧
      (lookupKey ('s' :: []) m).isSome = true ∧
      (lookupKey ('t' :: []) m).isSome = true :=
  update_stores_compact_hst [(dataKey16 "CRED".data, "abcd".data)] "CRED".data
    CredentialStatus.revoked 5
    "\x7b\"h\":\"abcd\",\"s\":\"Revoked\",\"t\":5\x7d".data rfl
